import Mathlib

set_option maxHeartbeats 1000000
set_option maxRecDepth 8000

/-!
Verification of the OIDN U-Net denoiser core: graph builder and memory
planner (`src/core/graph.cpp`, `src/core/graph.h`), tile-driven filter
orchestrator (`src/core/unet_filter.cpp`), and the SYCL convolution and
upsampling kernels (`src/core/sycl/`).  The C++ is shallowly embedded:
machine integers become `Nat`/`Int` (the quantities involved are sizes and
indices that do not overflow in the C++), pointer-linked allocation records
become index-linked records in a list, and fallible operations return
`Except`.
-/

namespace OIDN

/-! ### Common math helpers (OIDN `common/math.h`) -/

/-- `ceil_div(a, b) = (a + b - 1) / b` as in the OIDN math utilities. -/
def ceil_div (a b : Nat) : Nat := (a + b - 1) / b

/-- `round_up(a, b) = ceil_div(a, b) * b`. -/
def round_up (a b : Nat) : Nat := ceil_div a b * b

/-! ### Filter configuration and weight-blob selection
    (`UNetFilter::checkParams`, `UNetFilter::getWeights`,
     `src/core/unet_filter.cpp` lines 274-364) -/

/-- The built-in weight blobs of `UNetFilter` (one per row of the selection
table in spec section 6.3). -/
inductive WeightsBlob where
  | ldr | ldr_alb | ldr_alb_nrm | ldr_calb_cnrm
  | hdr | hdr_alb | hdr_alb_nrm | hdr_calb_cnrm
  | dir | alb | nrm
deriving DecidableEq, Repr

/-- The feature/mode flags of a `UNetFilter` configuration: which input
images are present and which mode booleans are set. -/
structure UNetConfig where
  color : Bool
  albedo : Bool
  normal : Bool
  hdr : Bool
  srgb : Bool
  directional : Bool
  cleanAux : Bool
deriving DecidableEq, Repr

/-- Errors surfaced by the filter (only the kind is relevant here). -/
inductive FilterError where
  | invalidOperation
deriving DecidableEq, Repr

/-- The feature-combination checks of `UNetFilter::checkParams`
(`unet_filter.cpp:274-300`); the image-format and image-size checks concern
data that is orthogonal to the feature flags and are omitted. -/
def checkParamsFeatures (c : UNetConfig) : Except FilterError Unit :=
  if !c.color && !c.albedo && !c.normal then .error .invalidOperation
  else if c.directional && (c.hdr || c.srgb) then .error .invalidOperation
  else if c.hdr && c.srgb then .error .invalidOperation
  else .ok ()

/-- `UNetFilter::getWeights` (`unet_filter.cpp:313-364`) with no
user-supplied weights and all built-in blobs present.  A combination that
leaves `weightsBlob` empty hits the final `if (!weightsBlob) throw`. -/
def getWeights (c : UNetConfig) : Except FilterError WeightsBlob :=
  if c.color then
    if !c.albedo && !c.normal then
      .ok (if c.directional then .dir else if c.hdr then .hdr else .ldr)
    else if c.albedo && !c.normal then
      .ok (if c.hdr then .hdr_alb else .ldr_alb)
    else if c.albedo && c.normal then
      .ok (if c.cleanAux then (if c.hdr then .hdr_calb_cnrm else .ldr_calb_cnrm)
           else (if c.hdr then .hdr_alb_nrm else .ldr_alb_nrm))
    else
      .error .invalidOperation
  else
    if c.albedo && !c.normal then
      if c.hdr then .error .invalidOperation else .ok .alb
    else if !c.albedo && c.normal then
      if c.hdr || c.srgb then .error .invalidOperation else .ok .nrm
    else
      .error .invalidOperation

/-- Whether `UNetFilter::init` accepts a configuration: both the parameter
check and the weight selection succeed (with no user weights). -/
def initAccepts (c : UNetConfig) : Bool :=
  (match checkParamsFeatures c with | .ok _ => true | .error _ => false) &&
  (match getWeights c with | .ok _ => true | .error _ => false)

/-- The eleven rows of the selection table in spec section 6.3, as
`(color, albedo, normal, hdr, directional, cleanAux)` tuples. -/
def selectionTable : List (Bool × Bool × Bool × Bool × Bool × Bool) :=
  [ (true,  false, false, false, false, false),
    (true,  false, false, true,  false, false),
    (true,  false, false, false, true,  false),
    (true,  true,  false, false, false, false),
    (true,  true,  false, true,  false, false),
    (true,  true,  true,  false, false, false),
    (true,  true,  true,  true,  false, false),
    (true,  true,  true,  false, false, true),
    (true,  true,  true,  true,  false, true),
    (false, true,  false, false, false, false),
    (false, false, true,  false, false, false) ]

/-- Whether a configuration's `(color, albedo, normal, hdr, directional,
cleanAux)` tuple is a row of the selection table. -/
def inSelectionTable (c : UNetConfig) : Bool :=
  selectionTable.contains (c.color, c.albedo, c.normal, c.hdr, c.directional, c.cleanAux)

/-- The exact acceptance condition of `init` on the feature flags, read off
`checkParams` and `getWeights`: some input is present, the mode exclusivity
constraints hold, and without color the auxiliary input is exactly one of
albedo (never hdr) or normal (never hdr or srgb); with color, albedo is
required whenever normal is present. -/
def acceptedFeatures (c : UNetConfig) : Bool :=
  (c.color || c.albedo || c.normal) &&
  !(c.directional && (c.hdr || c.srgb)) &&
  !(c.hdr && c.srgb) &&
  (if c.color then !(c.normal && !c.albedo)
   else if c.albedo then !c.normal && !c.hdr
   else !c.hdr && !c.srgb)

/-! ### Graph state, tensor allocation records and the memory planner
    (`src/core/graph.h`, `src/core/graph.cpp`) -/

/-- `Graph::TensorAlloc` (`graph.h:67-88`): the planner's per-transient
record.  The C++ `prev`/`next` pointers become indices into the graph's
allocation list. -/
structure TensorAlloc where
  byteSize : Nat
  firstOpID : Nat
  lastOpID : Nat
  next : Option Nat
  prev : Option Nat
  byteOffset : Nat
deriving DecidableEq, Repr

instance : Inhabited TensorAlloc := ⟨⟨0, 0, 0, none, none, 0⟩⟩

/-- Fresh allocation record for the destination of op `opID`
(`graph.h:80-87`: `firstOpID = lastOpID = opID`, no neighbours, offset 0). -/
def TensorAlloc.mk0 (byteSize opID : Nat) : TensorAlloc :=
  ⟨byteSize, opID, opID, none, none, 0⟩

/-- Indexing into the allocation store (C++ dereferences a pointer; an
out-of-range index never occurs in well-formed use). -/
def allocAt (allocs : List TensorAlloc) (i : Nat) : TensorAlloc :=
  allocs.getD i default

/-- The chain of allocation indices reached from `i` by following `next`
links (`graph.cpp:340`, `graph.cpp:388`).  `fuel` bounds the number of
steps; the planner passes the store size, which suffices for the acyclic
chains of well-formed graphs. -/
def chainFrom (allocs : List TensorAlloc) : Nat → Nat → List Nat
  | 0, i => [i]
  | fuel + 1, i =>
    match (allocAt allocs i).next with
    | none => [i]
    | some j => i :: chainFrom allocs fuel j

/-- A planner chunk (`graph.cpp:315-321`): a maximal `next`-chain, with the
combined byte size and the union of the members' op-ID ranges.  The C++
stores the head pointer and re-walks the (unchanged) chain when placing;
the member index list is recorded here once. -/
structure Chunk where
  members : List Nat
  firstOpID : Nat
  lastOpID : Nat
  byteSize : Nat
deriving Repr

/-- Chunk formation (`graph.cpp:323-348`): every allocation with no `prev`
heads one chunk consisting of its `next`-chain. -/
def mkChunks (allocs : List TensorAlloc) : List Chunk :=
  (List.range allocs.length).filterMap fun i =>
    if (allocAt allocs i).prev.isSome then none
    else
      let mem := chainFrom allocs allocs.length i
      some { members := mem
             firstOpID := mem.foldl (fun acc j => min acc (allocAt allocs j).firstOpID)
                            (allocAt allocs i).firstOpID
             lastOpID := mem.foldl (fun acc j => max acc (allocAt allocs j).lastOpID)
                            (allocAt allocs i).lastOpID
             byteSize := (mem.map fun j => (allocAt allocs j).byteSize).sum }

/-- Stable insertion for the descending-size chunk order
(`std::sort` by `byteSize` descending, `graph.cpp:350-352`). -/
def insertBySize (c : Chunk) : List Chunk → List Chunk
  | [] => [c]
  | d :: rest => if d.byteSize < c.byteSize then c :: d :: rest else d :: insertBySize c rest

/-- Sort chunks by decreasing byte size. -/
def sortChunksDesc (l : List Chunk) : List Chunk := l.foldr insertBySize []

/-- Whether a candidate gap is strictly smaller than the best gap so far
(`alloc->byteOffset - curByteOffset < bestGapByteSize`, `graph.cpp:375`);
`none` models the `SIZE_MAX` sentinel, smaller than no realizable gap. -/
def gapOk (best : Option (Nat × Nat)) (gap : Nat) : Bool :=
  match best with
  | none => true
  | some (_, bg) => decide (gap < bg)

/-- The best-fit walk over the active allocations (`graph.cpp:361-385`).
State: the running `curByteOffset` and the best gap found so far as
`some (bestByteOffset, bestGapByteSize)` (`none` models the `SIZE_MAX`
sentinels).  Allocations that do not overlap the chunk in time are
skipped. -/
def findBestLoop (allocs : List TensorAlloc) (cf cl csz : Nat) :
    List Nat → Nat → Option (Nat × Nat) → Nat × Option (Nat × Nat)
  | [], cur, best => (cur, best)
  | i :: rest, cur, best =>
    let a := allocAt allocs i
    if a.lastOpID < cf ∨ cl < a.firstOpID then
      findBestLoop allocs cf cl csz rest cur best
    else
      let best' :=
        if decide (cur + csz ≤ a.byteOffset) && gapOk best (a.byteOffset - cur) then
          some (cur, a.byteOffset - cur)
        else best
      findBestLoop allocs cf cl csz rest (max cur (a.byteOffset + a.byteSize)) best'

/-- The offset chosen for a chunk: the best gap if one was found, else the
append position (`graph.cpp:384-385`). -/
def chooseOffset (allocs : List TensorAlloc) (cf cl csz : Nat) (active : List Nat) : Nat :=
  match findBestLoop allocs cf cl csz active 0 none with
  | (cur, none) => cur
  | (_, some (bo, _)) => bo

/-- Insert index `i` into the active list, which is kept sorted by
ascending `byteOffset`; equal offsets keep insertion order
(`std::upper_bound`, `graph.cpp:392-394`). -/
def insertActive (allocs : List TensorAlloc) (i : Nat) : List Nat → List Nat
  | [] => [i]
  | j :: rest =>
    if (allocAt allocs i).byteOffset < (allocAt allocs j).byteOffset then i :: j :: rest
    else j :: insertActive allocs i rest

/-- Running state of the placement loop: the allocation store with offsets
written back, the sorted active list, and the high-water mark
(`tensorScratchByteSize`). -/
structure PlanState where
  allocs : List TensorAlloc
  active : List Nat
  hwm : Nat

/-- Assign consecutive offsets to the members of a chunk starting at `off`,
inserting each into the active list (`graph.cpp:388-397`).  Returns the
updated store, active list and the offset one past the chunk. -/
def placeMembers : List Nat → Nat → List TensorAlloc → List Nat →
    List TensorAlloc × List Nat × Nat
  | [], off, allocs, active => (allocs, active, off)
  | m :: rest, off, allocs, active =>
    let a := allocAt allocs m
    let allocs' := allocs.set m { a with byteOffset := off }
    let active' := insertActive allocs' m active
    placeMembers rest (off + a.byteSize) allocs' active'

/-- Place one chunk (`graph.cpp:359-400` loop body). -/
def placeChunk (st : PlanState) (c : Chunk) : PlanState :=
  let off := chooseOffset st.allocs c.firstOpID c.lastOpID c.byteSize st.active
  let r := placeMembers c.members off st.allocs st.active
  { allocs := r.1, active := r.2.1, hwm := max st.hwm r.2.2 }

/-- The offset-assignment pass of `Graph::planAllocations`
(`graph.cpp:312-400`): form chunks, sort by decreasing size, place each.
Returns the store with assigned offsets and `tensorScratchByteSize`. -/
def planAlloc (allocs : List TensorAlloc) : List TensorAlloc × Nat :=
  let chunks := sortChunksDesc (mkChunks allocs)
  let st := chunks.foldl placeChunk ⟨allocs, [], 0⟩
  (st.allocs, st.hwm)

/-- An operator as the graph sees it: only its reported scratch size
matters to the planner. -/
structure OpRec where
  scratchAlignedSize : Nat
deriving DecidableEq, Repr

/-- Errors raised by the graph builder. -/
inductive GraphError where
  | logicError
deriving DecidableEq, Repr

/-- The state of a `Graph` (`graph.h:109-122`). -/
structure GraphState where
  ops : List OpRec
  tensorAllocs : List TensorAlloc
  opScratchByteSize : Nat
  tensorScratchByteSize : Nat
  constByteSize : Nat
  hasScratch : Bool
  dirty : Bool
  finalized : Bool
deriving DecidableEq, Repr

/-- A graph as freshly constructed. -/
def emptyGraph : GraphState :=
  ⟨[], [], 0, 0, 0, false, false, false⟩

/-- The maximum per-op scratch size over all ops: the value the local
`opScratchByteSize` of `Graph::planAllocations` reaches
(`graph.cpp:402-405`). -/
def maxOpScratch (s : GraphState) : Nat :=
  s.ops.foldl (fun m op => max m op.scratchAlignedSize) 0

/-- `Graph::planAllocations` (`graph.cpp:312-408`) at the graph-state
level.  Note: at `graph.cpp:403` the C++ declares a local
`size_t opScratchByteSize = 0` that shadows the member field of the same
name (`graph.h:112`); the computed maximum is discarded when the local goes
out of scope, so the member `opScratchByteSize` is left unchanged here,
exactly as in the source. -/
def planAllocations (s : GraphState) : GraphState :=
  { s with tensorAllocs := (planAlloc s.tensorAllocs).1
           tensorScratchByteSize := (planAlloc s.tensorAllocs).2
           dirty := false }

/-- `Graph::getScratchAlignedSize` (`graph.cpp:423-428`): re-plan if dirty,
then return `opScratchByteSize + tensorScratchByteSize`. -/
def getScratchAlignedSize (s : GraphState) : Nat :=
  let s' := if s.dirty then planAllocations s else s
  s'.opScratchByteSize + s'.tensorScratchByteSize

/-- Extend the lifetimes of the source allocations to the new op and link
them into an adjacency chain when `concatSrcs` is set
(`graph.cpp:276-291`).  `prevIdx` is the previously visited source.  An
out-of-range source index models the C++ null-pointer dereference as an
error; it never occurs in well-formed use. -/
def extendSrcs (opID : Nat) (concatSrcs : Bool) :
    List TensorAlloc → Option Nat → List Nat → Except GraphError (List TensorAlloc)
  | allocs, _, [] => .ok allocs
  | allocs, prevIdx, cur :: rest =>
    match allocs[cur]? with
    | none => .error .logicError
    | some a =>
      let a := { a with lastOpID := opID }
      match prevIdx, concatSrcs with
      | some p, true =>
        let pa := allocAt allocs p
        if a.prev.isSome ∨ pa.next.isSome then .error .logicError
        else
          let allocs' := (allocs.set cur { a with prev := some p }).set p { pa with next := some cur }
          extendSrcs opID concatSrcs allocs' (some cur) rest
      | _, _ =>
        extendSrcs opID concatSrcs (allocs.set cur a) (some cur) rest

/-- `Graph::addOp` (the bookkeeping overload, `graph.cpp:267-295`):
fatal if the graph is finalized, else extend/chain the sources, append the
op and mark the graph dirty. -/
def addOp (s : GraphState) (op : OpRec) (srcAllocIDs : List Nat) (concatSrcs : Bool) :
    Except GraphError GraphState :=
  if s.finalized then .error .logicError
  else
    match extendSrcs s.ops.length concatSrcs s.tensorAllocs none srcAllocIDs with
    | .error e => .error e
    | .ok allocs =>
      .ok { s with tensorAllocs := allocs, ops := s.ops ++ [op], dirty := true }

/-- `Graph::addOp` (the overload that also creates a destination
allocation, `graph.cpp:297-310`). -/
def addOpWithDst (s : GraphState) (op : OpRec) (srcAllocIDs : List Nat)
    (dstByteSize : Nat) (concatSrcs : Bool) : Except GraphError GraphState :=
  let s' := { s with tensorAllocs := s.tensorAllocs ++ [TensorAlloc.mk0 dstByteSize s.ops.length] }
  addOp s' op srcAllocIDs concatSrcs

/-- `Graph::clear` (`graph.cpp:442-451`): drop ops, allocations, scratch
and size counters and clear `dirty`.  The `finalized` flag (`graph.h:116`)
is not in the list of fields reset by `clear`, exactly as in the source. -/
def graphClear (s : GraphState) : GraphState :=
  { ops := []
    tensorAllocs := []
    opScratchByteSize := 0
    tensorScratchByteSize := 0
    constByteSize := 0
    hasScratch := false
    dirty := false
    finalized := s.finalized }

/-- `Graph::finalize` (`graph.cpp:453-475`): plan if dirty, materialize
tensors (not modelled beyond dropping the builder-only state) and set
`finalized`. -/
def graphFinalize (s : GraphState) : GraphState :=
  let s' := if s.dirty then planAllocations s else s
  { s' with tensorAllocs := [], finalized := true }

/-- Unwrap a builder step that is known to succeed (used only to write
concrete build sequences in closed statements). -/
def okOr (e : Except GraphError GraphState) : GraphState :=
  match e with
  | .ok g => g
  | .error _ => emptyGraph

/-! ### The built U-Net topology (`UNetFilter::buildModel`,
    `unet_filter.cpp:395-424`) -/

/-- `Activation` (`conv.h`): `None` (linear) or `ReLU`. -/
inductive Activation where
  | None
  | ReLU
deriving DecidableEq, Repr

/-- The convolutions added by `UNetFilter::buildModel`
(`unet_filter.cpp:397-422`), in order, with the activation each is given.
`addConv` and `addConcatConv` default to `ReLU` (`graph.h:39`,
`graph.h:45`); only `dec_conv0` is passed `Activation::None`
(`unet_filter.cpp:422`). -/
def unetConvs : List (String × Activation) :=
  [ ("enc_conv0", .ReLU), ("enc_conv1", .ReLU), ("enc_conv2", .ReLU),
    ("enc_conv3", .ReLU), ("enc_conv4", .ReLU), ("enc_conv5a", .ReLU),
    ("enc_conv5b", .ReLU), ("dec_conv4a", .ReLU), ("dec_conv4b", .ReLU),
    ("dec_conv3a", .ReLU), ("dec_conv3b", .ReLU), ("dec_conv2a", .ReLU),
    ("dec_conv2b", .ReLU), ("dec_conv1a", .ReLU), ("dec_conv1b", .ReLU),
    ("dec_conv0", .None) ]

/-! ### The SYCL DPAS convolution kernel
    (`src/core/sycl/sycl_conv_dpas.cpp`) -/

/-- Zero-padded source load (`SYCLConvDPASKernel::loadRow`,
`sycl_conv_dpas.cpp:192-217`): out-of-bounds rows and columns read as
zero. -/
def srcLoad (H W : Nat) (src : Nat → Int → Int → Int) (ic : Nat) (ih iw : Int) : Int :=
  if 0 ≤ ih ∧ ih < (H : Int) ∧ 0 ≤ iw ∧ iw < (W : Int) then src ic ih iw else 0

/-- Per-element result of `SYCLConvDPASKernel::operator()`
(`sycl_conv_dpas.cpp:88-190`): accumulate `weight · src` over all input
channels and the 3x3 window centred on the output position, add the bias,
then clamp at zero (`max(dstVec, 0)`, line 171).  The clamp is
unconditional: the kernel receives no activation input, so the `Conv`
descriptor's activation cannot influence it.  Values are modelled by exact
integers; the clamping behaviour under scrutiny is independent of the
floating-point representation and the inputs used are exactly
representable in half precision. -/
def syclConvDPASElem (C H W : Nat) (src : Nat → Int → Int → Int)
    (weight : Nat → Nat → Nat → Nat → Int) (bias : Nat → Int) (oc oh ow : Nat) : Int :=
  max (bias oc +
    (List.range C).foldl (fun s1 ic =>
      (List.range 3).foldl (fun s2 kh =>
        (List.range 3).foldl (fun s3 kw =>
          s3 + weight oc ic kh kw *
            srcLoad H W src ic ((oh : Int) - 1 + (kh : Int)) ((ow : Int) - 1 + (kw : Int))) s2) s1) 0) 0

/-- The value a linear (identity-activation) convolution would produce at
the same element: bias plus the weighted sum, with no clamping. -/
def linearConvElem (C H W : Nat) (src : Nat → Int → Int → Int)
    (weight : Nat → Nat → Nat → Nat → Int) (bias : Nat → Int) (oc oh ow : Nat) : Int :=
  bias oc +
    (List.range C).foldl (fun s1 ic =>
      (List.range 3).foldl (fun s2 kh =>
        (List.range 3).foldl (fun s3 kw =>
          s3 + weight oc ic kh kw *
            srcLoad H W src ic ((oh : Int) - 1 + (kh : Int)) ((ow : Int) - 1 + (kw : Int))) s2) s1) 0

/-! ### Memory-write machinery shared by the kernel embeddings -/

/-- Apply a list of keyed writes to a memory, later writes overriding
earlier ones (the functional reading of an imperative store loop). -/
def applyWrites {ι α : Type} [DecidableEq ι] (ws : List (ι × α)) (f : ι → α) : ι → α :=
  ws.foldl (fun g kv => Function.update g kv.1 kv.2) f

/-! ### The SYCL upsampling kernel (`src/core/sycl/sycl_upsample.cpp`) -/

/-- Flat element index of logical position `(c, h, w)` in a `Chw16c`
tensor of height `H` and width `W`: channel blocks of 16 are outermost,
then rows, columns, and the channel remainder innermost.

Modelled from the spec: the `TensorAccessor3D` indexing code
(`tensor_accessor.h`) is not part of the sources; the spec describes
`Chw16c` as the blocked layout grouping channels by 16
(spec sections 3 and Glossary, block channels). -/
def chw16cIndex (H W c h w : Nat) : Nat :=
  ((c / 16) * H + h) * (W * 16) + w * 16 + c % 16

/-- The iteration space of `SYCLUpsample::run`
(`sycl_upsample.cpp:46-53`): the kernel is launched over
`hSrc < H * CB` and `wSrc < W`, and each invocation stores two rows of
`2 * 16` elements (`dh < 2`, `p < 32`). -/
def upsampleIters (H CB W : Nat) : List (Nat × Nat × Nat × Nat) :=
  (List.range (H * CB)).flatMap fun hSrc =>
    (List.range W).flatMap fun wSrc =>
      (List.range 2).flatMap fun dh =>
        (List.range 32).map fun p => (hSrc, wSrc, dh, p)

/-- Destination element index written by iteration `(hSrc, wSrc, dh, p)`
(`sycl_upsample.cpp:20-34`): `dstOffset = hSrcOffset * 4 + wSrcOffset * 2`
in elements, the second row at `dst.hStride` further. -/
def upsampleDstIndex (W dstHStride hSrc wSrc dh p : Nat) : Nat :=
  hSrc * (W * 16) * 4 + wSrc * 16 * 2 + dh * dstHStride + p

/-- Source element read by iteration `(hSrc, wSrc, dh, p)`: the 16-element
block at `(hSrc, wSrc)`, replicated twice (`v.replicate<2>()`), so element
`p` of the stored vector is source element `p % 16`. -/
def upsampleSrcIndex (W hSrc wSrc p : Nat) : Nat :=
  hSrc * (W * 16) + wSrc * 16 + p % 16

/-- `SYCLUpsample::run` (`sycl_upsample.cpp:46-53`) on flat `Chw16c`
memory: every launch index performs the block load, replication and two
block stores of `SYCLUpsampleKernel::operator()`.  `dstHStride` is the
destination row stride in elements; the destination descriptor (external
to the sources, spec: exact 2x upsampling) gives `dstHStride = 2 * W * 16`. -/
def syclUpsampleRun (H CB W dstHStride : Nat) (src dst : Nat → Int) : Nat → Int :=
  applyWrites
    ((upsampleIters H CB W).map fun t =>
      (upsampleDstIndex W dstHStride t.1 t.2.1 t.2.2.1 t.2.2.2,
       src (upsampleSrcIndex W t.1 t.2.1 t.2.2.2)))
    dst

/-! ### The weight/bias repacker
    (`Graph::tryReorderWeight`, `Graph::tryReorderBias`,
     `graph.cpp:505-588`) -/

/-- Tensor layouts involved in the repack dispatch (`tensor.h`). -/
inductive TensorLayout where
  | x | oihw | OIhw8i8o | OIhw16i16o | OIhw2o8i8o2i | OIhw8i16o2i | ohwi | chw | hwc | Chw16c
deriving DecidableEq, Repr

/-- Element data types (`tensor.h`). -/
inductive DataType where
  | half | float
deriving DecidableEq, Repr

/-- The supported `(srcType, dstType, srcLayout, dstLayout)` combinations
of `Graph::reorderWeight` (`graph.cpp:543-553`), in dispatch order. -/
def supportedWeightCombos : List (DataType × DataType × TensorLayout × TensorLayout) :=
  [ (.half, .half,  .oihw, .oihw),
    (.half, .float, .oihw, .oihw),
    (.half, .half,  .oihw, .OIhw8i8o),
    (.half, .float, .oihw, .OIhw8i8o),
    (.half, .half,  .oihw, .OIhw16i16o),
    (.half, .float, .oihw, .OIhw16i16o),
    (.half, .half,  .oihw, .OIhw2o8i8o2i),
    (.half, .half,  .oihw, .OIhw8i16o2i),
    (.half, .half,  .oihw, .ohwi),
    (.half, .float, .oihw, .ohwi) ]

/-- The iteration space of the copy loop of `Graph::tryReorderWeight`
(`graph.cpp:518-536`): `o < dstO`, `i < dstI`, `h < H`, `w < W`, in that
nesting order. -/
def reorderIters (dstO dstI H W : Nat) : List (Nat × Nat × Nat × Nat) :=
  (List.range dstO).flatMap fun o =>
    (List.range dstI).flatMap fun i =>
      (List.range H).flatMap fun h =>
        (List.range W).map fun w => (o, i, h, w)

/-- The body of the copy loop of `Graph::tryReorderWeight`
(`graph.cpp:526-532`): inside the source's logical output channels and the
copied input-channel slice, convert the source value; otherwise write the
converted zero (padding).  `conv` is the `SrcT → DstT` conversion (the
identity for half to half; value-preserving for half to float). -/
def reorderValue {α β : Type} (conv : α → β) (zero : α)
    (src : Nat × Nat × Nat × Nat → α) (srcO srcBeginI srcI : Nat)
    (t : Nat × Nat × Nat × Nat) : β :=
  if t.1 < srcO ∧ t.2.1 < srcI then conv (src (t.1, srcBeginI + t.2.1, t.2.2.1, t.2.2.2))
  else conv zero

/-- The copy loop of `Graph::tryReorderWeight` (`graph.cpp:518-536`) as a
function on logical-index tensors.  Tensors are read and written only
through the 4-D accessors, whose layout-dependent physical indexing
(external `tensor_accessor.h`) is an injection from logical indices, so
memories are modelled as maps over logical `(o, i, h, w)` directly. -/
def tryReorderWeight {α β : Type} (conv : α → β) (zero : α)
    (src : Nat × Nat × Nat × Nat → α) (srcO srcBeginI srcI : Nat)
    (dst : Nat × Nat × Nat × Nat → β) (dstO dstBeginI dstI H W : Nat) :
    Nat × Nat × Nat × Nat → β :=
  applyWrites
    ((reorderIters dstO dstI H W).map fun t =>
      ((t.1, dstBeginI + t.2.1, t.2.2.1, t.2.2.2),
       reorderValue conv zero src srcO srcBeginI srcI t))
    dst

/-- The copy loops of `Graph::tryReorderBias` (`graph.cpp:566-575`):
copy `x < srcX`, zero-fill `srcX ≤ x < dstX`. -/
def tryReorderBias {α β : Type} (conv : α → β) (zero : β)
    (src : Nat → α) (srcX : Nat) (dst : Nat → β) (dstX : Nat) : Nat → β :=
  applyWrites
    ((List.range srcX).map (fun x => (x, conv (src x))) ++
     (List.range (dstX - srcX)).map (fun k => (srcX + k, zero)))
    dst

/-! ### The tile-subdivision loop of `UNetFilter::init`
    (`unet_filter.cpp:219-254`).  The C++ works on `int`; it is embedded
    over `Int` with `Int.tdiv` (division truncating toward zero, as in
    C++). -/

/-- `ceil_div` on C++ `int`: `(a + b - 1) / b` with truncating division. -/
def ceilDivI (a b : Int) : Int := (a + b - 1).tdiv b

/-- `round_up` on C++ `int`: `ceil_div(a, b) * b`. -/
def roundUpI (a b : Int) : Int := ceilDivI a b * b

/-- The tile geometry maintained by `UNetFilter::init`. -/
structure TileState where
  tileCountH : Int
  tileCountW : Int
  tileH : Int
  tileW : Int
deriving DecidableEq, Repr

/-- The geometry before the subdivision loop (`unet_filter.cpp:226-229`):
one tile of `round_up(H, alignment) x round_up(W, alignment)`. -/
def initialTileState (H W alignment : Int) : TileState :=
  ⟨1, 1, roundUpI H alignment, roundUpI W alignment⟩

/-- One subdivision step (`unet_filter.cpp:233-249`): split the larger
dimension if it is still above `minTileSize = 3 * overlap`; `none` means
both dimensions are at the minimum and the infinite-budget fallback branch
is taken. -/
def subdivStep (H W overlap alignment : Int) (s : TileState) : Option TileState :=
  if 3 * overlap < s.tileH ∧ s.tileW < s.tileH then
    some { s with
      tileCountH := s.tileCountH + 1
      tileH := max (roundUpI (ceilDivI (H - 2 * overlap) (s.tileCountH + 1)) alignment
                      + 2 * overlap) (3 * overlap) }
  else if 3 * overlap < s.tileW then
    some { s with
      tileCountW := s.tileCountW + 1
      tileW := max (roundUpI (ceilDivI (W - 2 * overlap) (s.tileCountW + 1)) alignment
                      + 2 * overlap) (3 * overlap) }
  else none

/-- How the subdivision loop ended: normally (the loop condition became
false: tile count divisible by the engine count and `buildModel` succeeded
within budget), through the infinite-budget fallback branch, or not within
`fuel` iterations. -/
inductive SubdivResult where
  | normal (s : TileState)
  | fallback (s : TileState)
  | fuelOut
deriving DecidableEq, Repr

/-- The subdivision loop (`unet_filter.cpp:231-250`).  `build` abstracts
`buildModel(maxMemoryByteSize)` as a function of the current geometry. -/
def subdivLoop (numEngines : Int) (build : TileState → Bool)
    (H W overlap alignment : Int) : Nat → TileState → SubdivResult
  | 0, _ => .fuelOut
  | fuel + 1, s =>
    if (s.tileCountH * s.tileCountW) % numEngines = 0 ∧ build s then .normal s
    else
      match subdivStep H W overlap alignment s with
      | some s' => subdivLoop numEngines build H W overlap alignment fuel s'
      | none => .fallback s

/-! ### Execute-time tile geometry (`UNetFilter::execute`,
    `unet_filter.cpp:144-184`, and the final tile counts,
    `unet_filter.cpp:253-254`).  All quantities that appear are
    non-negative for the geometries `init` produces, so this part is
    embedded over `Nat`. -/

/-- Final tile count for one dimension (`unet_filter.cpp:253-254`):
`(H > tileH) ? ceil_div(H - 2*overlap, tileH - 2*overlap) : 1`. -/
def finalTileCount (H tileH overlap : Nat) : Nat :=
  if tileH < H then ceil_div (H - 2 * overlap) (tileH - 2 * overlap) else 1

/-- Input tile position for index `i` (`unet_filter.cpp:146`):
`h = i * (tileH - 2*overlap)`. -/
def tilePos (tileH overlap i : Nat) : Nat := i * (tileH - 2 * overlap)

/-- Leading overlap (`unet_filter.cpp:147`): `overlap` except for the
first tile. -/
def overlapBegin (overlap i : Nat) : Nat := if 0 < i then overlap else 0

/-- Trailing overlap (`unet_filter.cpp:148`): `overlap` except for the
last tile. -/
def overlapEnd (overlap count i : Nat) : Nat := if i < count - 1 then overlap else 0

/-- Input tile size including overlap (`unet_filter.cpp:149`):
`min(H - h, tileH)`. -/
def tileSize1 (H tileH overlap i : Nat) : Nat := min (H - tilePos tileH overlap i) tileH

/-- Output tile size (`unet_filter.cpp:150`):
`tileH1 - overlapBeginH - overlapEndH`. -/
def tileSize2 (H tileH overlap count i : Nat) : Nat :=
  tileSize1 H tileH overlap i - overlapBegin overlap i - overlapEnd overlap count i

/-- First output row (column) of tile `i`: `h + overlapBeginH`
(`unet_filter.cpp:173`). -/
def outBegin (tileH overlap i : Nat) : Nat :=
  tilePos tileH overlap i + overlapBegin overlap i

/-- One past the last output row (column) of tile `i`. -/
def outEnd (H tileH overlap count i : Nat) : Nat :=
  outBegin tileH overlap i + tileSize2 H tileH overlap count i

/-- Membership of output row (column) `y` in the output range of tile `i`. -/
def inOutRange (H tileH overlap count i y : Nat) : Prop :=
  outBegin tileH overlap i ≤ y ∧ y < outEnd H tileH overlap count i

instance (H tileH overlap count i y : Nat) :
    Decidable (inOutRange H tileH overlap count i y) := by
  unfold inOutRange; infer_instance

/-- The output rectangle of tile `(i, j)` contains pixel `(y, x)`:
rows from the height geometry, columns from the width geometry
(`unet_filter.cpp:170-174`). -/
def inOutTile (H W tileH tileW overlap countH countW i j y x : Nat) : Prop :=
  inOutRange H tileH overlap countH i y ∧ inOutRange W tileW overlap countW j x

/-- The boundary sequence of the output tile ranges in one dimension:
the start of tile `i` for `i < count`, and `H` one past the last tile. -/
def tileBound (H tileH overlap count i : Nat) : Nat :=
  if i < count then outBegin tileH overlap i else H

/-! ### Well-formedness of the allocation store and planner notions -/

/-- The final offset of the best-fit walk (`graph.cpp:384-385`): the best
gap if one was recorded, otherwise the append position `curByteOffset`. -/
def resolveBest : Nat × Option (Nat × Nat) → Nat
  | (cur, none) => cur
  | (_, some (bo, _)) => bo

/-- Two allocation records overlap in time: their inclusive
`[firstOpID, lastOpID]` ranges intersect. -/
def timeOverlap (a b : TensorAlloc) : Prop :=
  a.firstOpID ≤ b.lastOpID ∧ b.firstOpID ≤ a.lastOpID

/-- Two allocation records occupy disjoint byte extents
`[byteOffset, byteOffset + byteSize)`. -/
def bytesDisjoint (a b : TensorAlloc) : Prop :=
  a.byteOffset + a.byteSize ≤ b.byteOffset ∨ b.byteOffset + b.byteSize ≤ a.byteOffset

/-- A list of indices is a chain of the store: its head has no `prev`,
consecutive members are doubly linked, and its last member has no `next`. -/
def ChainLinked (allocs : List TensorAlloc) (c : List Nat) : Prop :=
  (∀ hd, c.head? = some hd → (allocAt allocs hd).prev = none) ∧
  List.Chain' (fun a b => (allocAt allocs a).next = some b ∧ (allocAt allocs b).prev = some a) c ∧
  (∀ lst, c.getLast? = some lst → (allocAt allocs lst).next = none)

/-- Well-formedness of an allocation store, witnessed by its decomposition
into chains: every index belongs to exactly one chain, chains are
`prev`/`next`-linked and acyclic (they are finite lists), and every record
has `firstOpID ≤ lastOpID`.  A `prev`/`next` structure with at most one
neighbour on each side, mutually consistent links and no cycles decomposes
uniquely this way, so this is the claim's well-formedness condition. -/
def GraphWF (allocs : List TensorAlloc) (chains : List (List Nat)) : Prop :=
  (∀ c ∈ chains, c ≠ [] ∧ ChainLinked allocs c) ∧
  chains.flatten.Perm (List.range allocs.length) ∧
  (∀ a ∈ allocs, a.firstOpID ≤ a.lastOpID)

/-- Per-chunk facts the placement proof uses, all relative to the store
the chunks were formed from: the chunk's interval covers its members'
intervals, its size is the sum of the members' sizes, and its member
indices are distinct and valid. -/
def ChunkWF (allocs : List TensorAlloc) (c : Chunk) : Prop :=
  (∀ m ∈ c.members, c.firstOpID ≤ (allocAt allocs m).firstOpID ∧
                    (allocAt allocs m).lastOpID ≤ c.lastOpID) ∧
  c.byteSize = (c.members.map fun m => (allocAt allocs m).byteSize).sum ∧
  c.members.Nodup ∧
  (∀ m ∈ c.members, m < allocs.length)

/-- Everything except `byteOffset` of a record: placement never changes
these fields. -/
def allocShape (a : TensorAlloc) : Nat × Nat × Nat × Option Nat × Option Nat :=
  (a.byteSize, a.firstOpID, a.lastOpID, a.next, a.prev)

/-- The active list is sorted by ascending byte offset. -/
def ActiveSorted (allocs : List TensorAlloc) (active : List Nat) : Prop :=
  List.Pairwise (fun i j => (allocAt allocs i).byteOffset ≤ (allocAt allocs j).byteOffset) active

/-- Invariant of the placement fold relative to the original store:
lengths and shapes are preserved, the active list is duplicate-free and
sorted, and active records with overlapping lifetimes occupy disjoint
bytes. -/
def PlanInv (orig : List TensorAlloc) (st : PlanState) : Prop :=
  st.allocs.length = orig.length ∧
  (∀ k, allocShape (allocAt st.allocs k) = allocShape (allocAt orig k)) ∧
  st.active.Nodup ∧
  ActiveSorted st.allocs st.active ∧
  (∀ i ∈ st.active, ∀ j ∈ st.active, i ≠ j →
    timeOverlap (allocAt st.allocs i) (allocAt st.allocs j) →
    bytesDisjoint (allocAt st.allocs i) (allocAt st.allocs j))

/-- Invariant of the tile-subdivision loop: each dimension either has not
been subdivided (one tile of the initial aligned size) or has a tile size
of at least `3 * overlap`. -/
def tileDimInv (dim alignment overlap : Int) (count tile : Int) : Prop :=
  (count = 1 ∧ tile = roundUpI dim alignment) ∨ 3 * overlap ≤ tile

/-! ### Concrete graphs used in closed statements -/

/-- An op with no scratch requirement. -/
def opRec0 : OpRec := ⟨0⟩

/-- An op reporting 100 bytes of scratch. -/
def opRec100 : OpRec := ⟨100⟩

/-- A graph holding one op that reports 100 bytes of scratch and one
64-byte transient allocation (built through `addOpWithDst`). -/
def graphC1 : GraphState := okOr (addOpWithDst emptyGraph opRec100 [] 64 false)

/-- A graph with one op and one 16-byte transient allocation. -/
def graphBuilt : GraphState := okOr (addOpWithDst emptyGraph opRec0 [] 16 false)

/-- Two unchained 100-byte allocations with overlapping lifetimes
`[0,5]` and `[3,7]` (spec section 8, scenario 2). -/
def allocsW2 : List TensorAlloc :=
  [⟨100, 0, 5, none, none, 0⟩, ⟨100, 3, 7, none, none, 0⟩]

/-- The chain decomposition of `allocsW2`: two singleton chains. -/
def chainsW2 : List (List Nat) := [[0], [1]]

/-- A three-member adjacency chain sized 50, 70, 30, all live on `[0,10]`
(spec section 8, scenario 3). -/
def allocsW3 : List TensorAlloc :=
  [⟨50, 0, 10, some 1, none, 0⟩, ⟨70, 0, 10, some 2, some 0, 0⟩,
   ⟨30, 0, 10, none, some 1, 0⟩]

/-- The chain decomposition of `allocsW3`: one three-member chain. -/
def chainsW3 : List (List Nat) := [[0, 1, 2]]

/-! ## Theorems -/

/-! ### C7: weight-blob selection -/

/-- C7 counterexample: the configuration with color only and `cleanAux`
set is not a row of the selection table in spec section 6.3, yet `init`
accepts it (`getWeights` ignores `cleanAux` unless both albedo and normal
are present and selects the `ldr` blob), so the claim that every
combination outside the table is rejected is false. -/
theorem C7_counterexample :
    inSelectionTable ⟨true, false, false, false, false, false, true⟩ = false ∧
    initAccepts ⟨true, false, false, false, false, false, true⟩ = true := by
  decide

/-- C7 (amended): `init` accepts exactly the configurations satisfying
`acceptedFeatures`: at least one input present, `directional` exclusive
with `hdr`/`srgb`, `hdr` exclusive with `srgb`, and, without color,
exactly one auxiliary input (albedo only without `hdr`, normal only
without `hdr`/`srgb`); with color, `normal` requires `albedo`.  All other
combinations are rejected; flags the selection ignores (such as `cleanAux`
without both auxiliary inputs) do not cause rejection. -/
theorem C7_accept_characterization :
    ∀ color albedo normal hdr srgb directional cleanAux : Bool,
      initAccepts ⟨color, albedo, normal, hdr, srgb, directional, cleanAux⟩ =
      acceptedFeatures ⟨color, albedo, normal, hdr, srgb, directional, cleanAux⟩ := by
  decide

/-! ### C8: clear() and the finalized flag -/

/-- C8 counterexample: adding an op to a fresh graph succeeds, but after
`finalize()` followed by `clear()` the very same addition fails with the
add-after-finalize logic error, because `Graph::clear`
(`graph.cpp:442-451`) does not reset the `finalized` flag. -/
theorem C8_counterexample :
    addOpWithDst emptyGraph opRec0 [] 16 false = .ok graphBuilt ∧
    addOp (graphClear (graphFinalize graphBuilt)) opRec0 [] false =
      .error GraphError.logicError := by
  exact ⟨rfl, rfl⟩

/-- C8 (amended): `clear()` drops all ops, allocations, scratch and size
counters, but leaves the `finalized` flag untouched; consequently an op
addition after `clear()` succeeds if and only if `finalize()` has never
been called on the graph.  For a graph that has not been finalized, the
build cycle can indeed be restarted after `clear()`. -/
theorem C8_clear_restores_building (s : GraphState) (op : OpRec)
    (h : s.finalized = false) :
    addOp (graphClear s) op [] false =
      Except.ok { graphClear s with ops := [op], dirty := true } := by
  simp [addOp, graphClear, extendSrcs, h]

/-- C8 witness: the amended statement applied to the empty graph. -/
theorem C8_clear_restores_building_witness :
    emptyGraph.finalized = false ∧
    addOp (graphClear emptyGraph) opRec0 [] false =
      Except.ok { graphClear emptyGraph with ops := [opRec0], dirty := true } :=
  ⟨rfl, C8_clear_restores_building emptyGraph opRec0 rfl⟩

/-! ### C1: getScratchAlignedSize and the shadowed op-scratch total -/

/-- C1: on a graph holding one op that reports 100 bytes of scratch and
one 64-byte transient, `getScratchAlignedSize()` returns only the tensor
high-water mark 64 and not `64 + 100`: the local `opScratchByteSize`
computed at `graph.cpp:403-405` shadows the member field (`graph.h:112`),
which stays 0, so the per-op scratch never reaches the returned sum and
the result does not strictly exceed the high-water mark. -/
theorem C1_scratch_ignores_op_scratch :
    maxOpScratch graphC1 = 100 ∧
    (planAllocations graphC1).tensorScratchByteSize = 64 ∧
    getScratchAlignedSize graphC1 = 64 ∧
    ¬ (planAllocations graphC1).tensorScratchByteSize < getScratchAlignedSize graphC1 := by
  refine ⟨rfl, rfl, rfl, ?_⟩
  decide

/-! ### C9: dec_conv0 activation and the DPAS kernel clamp -/

/-- C9: the builder gives `dec_conv0` the linear activation and every
other convolution `ReLU` (`unet_filter.cpp:397-422`), but the SYCL DPAS
convolution kernel clamps every output at zero unconditionally
(`sycl_conv_dpas.cpp:171`), with no activation input at all: with zero
weights and bias `-1` the kernel produces `0` where the linear convolution
the claim describes produces `-1`. -/
theorem C9_dec_conv0_clamped :
    unetConvs.lookup "dec_conv0" = some Activation.None ∧
    (∀ p ∈ unetConvs, p.1 ≠ "dec_conv0" → p.2 = Activation.ReLU) ∧
    syclConvDPASElem 16 8 8 (fun _ _ _ => 0) (fun _ _ _ _ => 0) (fun _ => -1) 0 1 1 = 0 ∧
    linearConvElem 16 8 8 (fun _ _ _ => 0) (fun _ _ _ _ => 0) (fun _ => -1) 0 1 1 = -1 := by
  refine ⟨rfl, ?_, ?_, ?_⟩
  · decide
  · decide
  · decide

/-! ### C6: minimum tile size -/

/-- C6 counterexample: with image `1 x 1`, `overlap = 2`, `alignment = 1`,
one engine and a `buildModel` that succeeds immediately, the subdivision
loop exits normally (no fallback) with `tileH = tileW = 1 < 6 = 3*overlap`:
the initial `tileH = round_up(H, alignment)` (`unet_filter.cpp:228-229`)
is never clamped to `minTileSize`. -/
theorem C6_counterexample :
    subdivLoop 1 (fun _ => true) 1 1 2 1 1 (initialTileState 1 1 1) =
      SubdivResult.normal ⟨1, 1, 1, 1⟩ ∧
    ¬ (3 * 2 ≤ (1 : Int)) := by
  decide

/-- Every subdivision step preserves the per-dimension invariant: a
stepped dimension is clamped to at least `3 * overlap`
(`unet_filter.cpp:236`, `241`), an untouched dimension keeps its
invariant. -/
theorem subdivStep_inv (H W overlap alignment : Int) (s s' : TileState)
    (hH : tileDimInv H alignment overlap s.tileCountH s.tileH)
    (hW : tileDimInv W alignment overlap s.tileCountW s.tileW)
    (hstep : subdivStep H W overlap alignment s = some s') :
    tileDimInv H alignment overlap s'.tileCountH s'.tileH ∧
    tileDimInv W alignment overlap s'.tileCountW s'.tileW := by
  unfold subdivStep at hstep
  split_ifs at hstep with h1 h2
  · cases hstep
    exact ⟨Or.inr (le_max_right _ _), hW⟩
  · cases hstep
    exact ⟨hH, Or.inr (le_max_right _ _)⟩

/-- The subdivision loop preserves the per-dimension invariants up to a
normal exit. -/
theorem subdivLoop_inv (numEngines : Int) (build : TileState → Bool)
    (H W overlap alignment : Int) :
    ∀ (fuel : Nat) (s s' : TileState),
    tileDimInv H alignment overlap s.tileCountH s.tileH →
    tileDimInv W alignment overlap s.tileCountW s.tileW →
    subdivLoop numEngines build H W overlap alignment fuel s = .normal s' →
    tileDimInv H alignment overlap s'.tileCountH s'.tileH ∧
    tileDimInv W alignment overlap s'.tileCountW s'.tileW := by
  intro fuel
  induction fuel with
  | zero => intro s s' _ _ hrun; cases hrun
  | succ n ih =>
    intro s s' hH hW hrun
    unfold subdivLoop at hrun
    split_ifs at hrun with hcond
    · cases hrun
      exact ⟨hH, hW⟩
    · cases hstep : subdivStep H W overlap alignment s with
      | none => rw [hstep] at hrun; cases hrun
      | some s2 =>
        rw [hstep] at hrun
        obtain ⟨hH2, hW2⟩ := subdivStep_inv H W overlap alignment s s2 hH hW hstep
        exact ih s2 s' hH2 hW2 hrun

/-- C6 (amended): whenever the tile-subdivision loop of `init` completes
without taking the infinite-budget fallback branch, then for each
dimension either that dimension was never subdivided - its tile count is
still 1 and its tile size is the initial `round_up(dim, alignment)`, one
tile covering the whole image - or its tile size is at least
`3 * overlap`.  The claimed unconditional bound `tileH, tileW ≥ 3*overlap`
fails for un-subdivided dimensions of images smaller than `3 * overlap`. -/
theorem C6_tile_min_size (fuel : Nat) (numEngines : Int) (build : TileState → Bool)
    (H W overlap alignment : Int) (s' : TileState)
    (hrun : subdivLoop numEngines build H W overlap alignment fuel
              (initialTileState H W alignment) = .normal s') :
    (s'.tileCountH = 1 ∧ s'.tileH = roundUpI H alignment ∨ 3 * overlap ≤ s'.tileH) ∧
    (s'.tileCountW = 1 ∧ s'.tileW = roundUpI W alignment ∨ 3 * overlap ≤ s'.tileW) :=
  subdivLoop_inv numEngines build H W overlap alignment fuel
    (initialTileState H W alignment) s'
    (Or.inl ⟨rfl, rfl⟩) (Or.inl ⟨rfl, rfl⟩) hrun

/-- C6 witness: the amended statement at the concrete counterexample run. -/
theorem C6_tile_min_size_witness :
    ((1 : Int) = 1 ∧ (1 : Int) = roundUpI 1 1 ∨ 3 * 2 ≤ (1 : Int)) ∧
    ((1 : Int) = 1 ∧ (1 : Int) = roundUpI 1 1 ∨ 3 * 2 ≤ (1 : Int)) :=
  C6_tile_min_size 1 1 (fun _ => true) 1 1 2 1 ⟨1, 1, 1, 1⟩ (by decide)

/-! ### Write-fold lemmas -/

/-- A memory cell no write targets is unchanged. -/
theorem applyWrites_notMem {ι α : Type} [DecidableEq ι] (ws : List (ι × α)) (f : ι → α)
    (k : ι) (h : ∀ kv ∈ ws, kv.1 ≠ k) : applyWrites ws f k = f k := by
  induction ws generalizing f with
  | nil => rfl
  | cons kv rest ih =>
    have hk : kv.1 ≠ k := h kv (List.mem_cons_self _ _)
    have hstep : applyWrites (kv :: rest) f k =
        applyWrites rest (Function.update f kv.1 kv.2) k := rfl
    rw [hstep, ih _ (fun kv' h' => h kv' (List.mem_cons_of_mem _ h')),
      Function.update_noteq (Ne.symm hk)]

/-- Writes over (at least) one iteration list with pointwise-agreeing
values: the cell targeted by iteration `x` ends up holding `x`'s value. -/
theorem applyWrites_map_eq {ι α β : Type} [DecidableEq ι] (key : β → ι) (val : β → α) :
    ∀ (l : List β) (f : ι → α) (x : β), x ∈ l →
    (∀ y ∈ l, key y = key x → val y = val x) →
    applyWrites (l.map fun y => (key y, val y)) f (key x) = val x := by
  intro l
  induction l with
  | nil => intro f x hx _; cases hx
  | cons b rest ih =>
    intro f x hx hagree
    have hstep : applyWrites ((b :: rest).map fun y => (key y, val y)) f (key x) =
        applyWrites (rest.map fun y => (key y, val y))
          (Function.update f (key b) (val b)) (key x) := rfl
    rw [hstep]
    by_cases hcase : ∃ y ∈ rest, key y = key x
    · obtain ⟨y, hy, hky⟩ := hcase
      have hvy : val y = val x := hagree y (List.mem_cons_of_mem _ hy) hky
      rw [← hky, ← hvy]
      exact ih _ y hy fun z hz hkz =>
        (hagree z (List.mem_cons_of_mem _ hz) (hkz.trans hky)).trans hvy.symm
    · push_neg at hcase
      have hxb : x = b := by
        rcases List.mem_cons.mp hx with h | h
        · exact h
        · exact absurd rfl (hcase x h)
      have hnot : ∀ kv ∈ rest.map fun y => (key y, val y), kv.1 ≠ key x := by
        intro kv hkv
        obtain ⟨z, hz, rfl⟩ := List.mem_map.mp hkv
        exact hcase z hz
      rw [applyWrites_notMem _ _ _ hnot, hxb, Function.update_same]

/-- Appending write lists composes the folds. -/
theorem applyWrites_append {ι α : Type} [DecidableEq ι] (l1 l2 : List (ι × α)) (f : ι → α) :
    applyWrites (l1 ++ l2) f = applyWrites l2 (applyWrites l1 f) := by
  unfold applyWrites
  rw [List.foldl_append]

/-- Mixed-radix decomposition: quotient and remainder below the radix are
unique. -/
theorem mixed_radix {B q r q' r' : Nat} (hr : r < B) (hr' : r' < B)
    (h : B * q + r = B * q' + r') : q = q' ∧ r = r' := by
  have hB : 0 < B := Nat.lt_of_le_of_lt (Nat.zero_le r) hr
  have h1 : (B * q + r) / B = q := by
    rw [Nat.mul_add_div hB, Nat.div_eq_of_lt hr, Nat.add_zero]
  have h2 : (B * q' + r') / B = q' := by
    rw [Nat.mul_add_div hB, Nat.div_eq_of_lt hr', Nat.add_zero]
  have hq : q = q' := by rw [← h1, h, h2]
  subst hq
  exact ⟨rfl, Nat.add_left_cancel h⟩

/-! ### C10: the upsampling kernel -/

/-- Membership in the upsample iteration space is exactly the bounds on
the four components. -/
theorem mem_upsampleIters {H CB W : Nat} {t : Nat × Nat × Nat × Nat} :
    t ∈ upsampleIters H CB W ↔
      t.1 < H * CB ∧ t.2.1 < W ∧ t.2.2.1 < 2 ∧ t.2.2.2 < 32 := by
  obtain ⟨a, b, d, p⟩ := t
  simp only [upsampleIters, List.mem_flatMap, List.mem_map, List.mem_range, Prod.mk.injEq]
  constructor
  · rintro ⟨a', ha', b', hb', d', hd', p', hp', rfl, rfl, rfl, rfl⟩
    exact ⟨ha', hb', hd', hp'⟩
  · rintro ⟨ha, hb, hd, hp⟩
    exact ⟨a, ha, b, hb, d, hd, p, hp, rfl, rfl, rfl, rfl⟩

/-- The destination index written by an upsample iteration, in mixed-radix
form (with the 2x destination row stride `2 * W * 16`). -/
theorem upsampleDstIndex_expand (W a b d p : Nat) :
    upsampleDstIndex W (2 * W * 16) a b d p = 32 * (W * (2 * a + d) + b) + p := by
  unfold upsampleDstIndex
  ring

/-- Distinct upsample iterations write distinct destination cells. -/
theorem upsampleDstIndex_inj {W a b d p a' b' d' p' : Nat}
    (hb : b < W) (hb' : b' < W) (hd : d < 2) (hd' : d' < 2) (hp : p < 32) (hp' : p' < 32)
    (h : upsampleDstIndex W (2 * W * 16) a b d p = upsampleDstIndex W (2 * W * 16) a' b' d' p') :
    a = a' ∧ b = b' ∧ d = d' ∧ p = p' := by
  rw [upsampleDstIndex_expand, upsampleDstIndex_expand] at h
  obtain ⟨h1, hpp⟩ := mixed_radix hp hp' h
  obtain ⟨h2, hbb⟩ := mixed_radix hb hb' h1
  exact ⟨by omega, hbb, by omega, hpp⟩

/-- C10: the SYCL upsampling kernel computes exact 2x nearest-neighbour
upsampling: on a `Chw16c` source of height `H`, width `W` and `CB` channel
blocks, the destination (of height `2H` and width `2W`, hence row stride
`2*W*16`; the doubled destination shape is the upsample op's descriptor,
spec section 3) holds `dst(c, 2h+dh, 2w+dw) = src(c, h, w)` for every
channel `c`, source position `(h, w)` and `dh, dw` in `{0, 1}`. -/
theorem C10_upsample_nearest (src dst : Nat → Int) (H W CB c h w dh dw : Nat)
    (hc : c < CB * 16) (hh : h < H) (hw : w < W) (hdh : dh < 2) (hdw : dw < 2) :
    syclUpsampleRun H CB W (2 * W * 16) src dst
      (chw16cIndex (2 * H) (2 * W) c (2 * h + dh) (2 * w + dw)) =
    src (chw16cIndex H W c h w) := by
  have hcb : c / 16 < CB := (Nat.div_lt_iff_lt_mul (by norm_num)).mpr hc
  have hx : ((c / 16) * H + h, w, dh, dw * 16 + c % 16) ∈ upsampleIters H CB W := by
    refine mem_upsampleIters.mpr ⟨?_, hw, hdh, show dw * 16 + c % 16 < 32 by omega⟩
    calc (c / 16) * H + h < (c / 16) * H + H := Nat.add_lt_add_left hh _
      _ = (c / 16 + 1) * H := by ring
      _ ≤ CB * H := Nat.mul_le_mul_right H (Nat.succ_le_of_lt hcb)
      _ = H * CB := Nat.mul_comm _ _
  have hkey : chw16cIndex (2 * H) (2 * W) c (2 * h + dh) (2 * w + dw) =
      upsampleDstIndex W (2 * W * 16) ((c / 16) * H + h) w dh (dw * 16 + c % 16) := by
    unfold chw16cIndex upsampleDstIndex
    ring
  have hmod : (dw * 16 + c % 16) % 16 = c % 16 := by omega
  have hval : upsampleSrcIndex W ((c / 16) * H + h) w (dw * 16 + c % 16) =
      chw16cIndex H W c h w := by
    unfold upsampleSrcIndex chw16cIndex
    rw [hmod]
  rw [hkey, ← hval]
  unfold syclUpsampleRun
  refine applyWrites_map_eq
    (fun t => upsampleDstIndex W (2 * W * 16) t.1 t.2.1 t.2.2.1 t.2.2.2)
    (fun t => src (upsampleSrcIndex W t.1 t.2.1 t.2.2.2)) _ dst _ hx ?_
  intro y hy hkeq
  obtain ⟨a, b, d, p⟩ := y
  obtain ⟨ha', hb', hd', hp'⟩ := mem_upsampleIters.mp hy
  obtain ⟨h1, h2, h3, h4⟩ :=
    upsampleDstIndex_inj hb' hw hd' hdh hp' (show dw * 16 + c % 16 < 32 by omega) hkeq
  have ha : a = (c / 16) * H + h := h1
  have hb : b = w := h2
  have hp : p = dw * 16 + c % 16 := h4
  show src (upsampleSrcIndex W a b p) = _
  rw [ha, hb, hp]

/-- C10 witness: a concrete instance of the nearest-neighbour equation
(`H = W = 1`, one channel block, reading destination position `(0, 1, 1)`),
with the bounds discharged by computation. -/
theorem C10_upsample_nearest_witness :
    syclUpsampleRun 1 1 1 (2 * 1 * 16) (fun k => (k : Int) + 3) (fun _ => 0)
      (chw16cIndex (2 * 1) (2 * 1) 0 (2 * 0 + 1) (2 * 0 + 1)) =
    (fun k => (k : Int) + 3) (chw16cIndex 1 1 0 0 0) :=
  C10_upsample_nearest (fun k => (k : Int) + 3) (fun _ => 0) 1 1 1 0 0 0 1 1
    (by decide) (by decide) (by decide) (by decide) (by decide)

/-! ### C4: the weight/bias repacker -/

/-- Membership in the repack iteration space is exactly the bounds on the
four components. -/
theorem mem_reorderIters {dstO dstI H W : Nat} {t : Nat × Nat × Nat × Nat} :
    t ∈ reorderIters dstO dstI H W ↔
      t.1 < dstO ∧ t.2.1 < dstI ∧ t.2.2.1 < H ∧ t.2.2.2 < W := by
  obtain ⟨a, b, c, d⟩ := t
  simp only [reorderIters, List.mem_flatMap, List.mem_map, List.mem_range, Prod.mk.injEq]
  constructor
  · rintro ⟨a', ha', b', hb', c', hc', d', hd', rfl, rfl, rfl, rfl⟩
    exact ⟨ha', hb', hc', hd'⟩
  · rintro ⟨ha, hb, hc, hd⟩
    exact ⟨a, ha, b, hb, c, hc, d, hd, rfl, rfl, rfl, rfl⟩

/-- C4: for every supported repack combination, the weight repacker read
back through the canonical accessor yields the converted source value
`src(o, srcBeginI + i, h, w)` inside the source's logical output channels
and the copied input-channel slice `i < srcI`, and the converted zero at
every other written index (padded output channels `srcO ≤ o < dstO` and
input-channel padding `srcI ≤ i < dstI`); the bias repacker copies
`x < srcX` and zero-fills the tail up to the destination's padded length.
`conv` is the value-preserving element conversion of the combination (the
identity for half to half), so `conv zero` is the claim's zero. -/
theorem C4_repack {α β : Type} (combo : DataType × DataType × TensorLayout × TensorLayout)
    (hcombo : combo ∈ supportedWeightCombos)
    (conv : α → β) (zero : α) (zeroB : β)
    (src : Nat × Nat × Nat × Nat → α) (dst : Nat × Nat × Nat × Nat → β)
    (bsrc : Nat → α) (bdst : Nat → β)
    (srcO srcBeginI srcI dstO dstBeginI dstI H W : Nat)
    (o i h w : Nat) (ho : o < dstO) (hi : i < dstI) (hh : h < H) (hw : w < W)
    (srcX dstX xb : Nat) (hsx : srcX ≤ dstX) (hxb : xb < dstX) :
    tryReorderWeight conv zero src srcO srcBeginI srcI dst dstO dstBeginI dstI H W
      (o, dstBeginI + i, h, w) =
      (if o < srcO ∧ i < srcI then conv (src (o, srcBeginI + i, h, w)) else conv zero) ∧
    tryReorderBias conv zeroB bsrc srcX bdst dstX xb =
      (if xb < srcX then conv (bsrc xb) else zeroB) := by
  constructor
  · unfold tryReorderWeight
    exact applyWrites_map_eq
      (fun t => (t.1, dstBeginI + t.2.1, t.2.2.1, t.2.2.2))
      (reorderValue conv zero src srcO srcBeginI srcI)
      _ dst (o, i, h, w) (mem_reorderIters.mpr ⟨ho, hi, hh, hw⟩)
      (fun y _ hkeq => by
        obtain ⟨a, b, c, d⟩ := y
        simp only [Prod.mk.injEq] at hkeq
        obtain ⟨rfl, hb, rfl, rfl⟩ := hkeq
        have hbi : b = i := by omega
        subst hbi
        rfl)
  · unfold tryReorderBias
    rw [applyWrites_append]
    by_cases hlt : xb < srcX
    · rw [if_pos hlt]
      have hnot2 : ∀ kv ∈ (List.range (dstX - srcX)).map fun k => (srcX + k, zeroB),
          kv.1 ≠ xb := by
        intro kv hkv
        obtain ⟨k, _, rfl⟩ := List.mem_map.mp hkv
        omega
      rw [applyWrites_notMem _ _ _ hnot2]
      exact applyWrites_map_eq (fun x => x) (fun x => conv (bsrc x)) _ bdst xb
        (List.mem_range.mpr hlt) (fun y _ hkeq => congrArg (fun x => conv (bsrc x)) hkeq)
    · rw [if_neg hlt]
      have hxeq : xb = srcX + (xb - srcX) := by omega
      rw [hxeq]
      exact applyWrites_map_eq (fun k => srcX + k) (fun _ => zeroB) _ _ (xb - srcX)
        (List.mem_range.mpr (by omega)) (fun y _ _ => rfl)

/-- C4 witness: the half-to-half `oihw` combination on a one-element
slice, reading back the copied element and the first padded bias element. -/
theorem C4_repack_witness :
    tryReorderWeight (fun v : Int => v) 0 (fun _ => 7) 1 0 1 (fun _ => 9) 2 0 2 1 1
      (0, 0 + 0, 0, 0) =
      (if 0 < 1 ∧ 0 < 1 then (fun v : Int => v) ((fun _ => (7 : Int)) (0, 0 + 0, 0, 0))
       else (fun v : Int => v) 0) ∧
    tryReorderBias (fun v : Int => v) 0 (fun _ => 5) 1 (fun _ => 9) 2 1 =
      (if 1 < 1 then (fun v : Int => v) ((fun _ => (5 : Int)) 1) else 0) :=
  C4_repack (.half, .half, .oihw, .oihw) (by decide)
    (fun v : Int => v) 0 0 (fun _ => 7) (fun _ => 9) (fun _ => 5) (fun _ => 9)
    1 0 1 2 0 2 1 1 0 0 0 0
    (by decide) (by decide) (by decide) (by decide)
    1 2 1 (by decide) (by decide)

/-! ### C5: tile coverage -/

/-- `a ≤ ceil_div(a, b) * b` for positive `a`, `b`. -/
theorem le_ceil_div_mul (a b : Nat) (ha : 1 ≤ a) (hb : 1 ≤ b) : a ≤ ceil_div a b * b := by
  by_contra hcon
  push_neg at hcon
  have h1 : (ceil_div a b + 1) * b ≤ a + b - 1 := by
    rw [Nat.add_mul, Nat.one_mul]
    omega
  have h2 : ceil_div a b + 1 ≤ (a + b - 1) / b := (Nat.le_div_iff_mul_le hb).mpr h1
  have h3 : (a + b - 1) / b = ceil_div a b := rfl
  omega

/-- `(ceil_div(a, b) - 1) * b < a` for positive `a`, `b`. -/
theorem ceil_div_pred_mul_lt (a b : Nat) (ha : 1 ≤ a) (hb : 1 ≤ b) :
    (ceil_div a b - 1) * b < a := by
  rcases Nat.eq_zero_or_pos (ceil_div a b) with h0 | hpos
  · rw [h0]
    simpa using ha
  · by_contra hcon
    push_neg at hcon
    have hq : (ceil_div a b - 1) * b + b = ceil_div a b * b := by
      have hpred : ceil_div a b - 1 + 1 = ceil_div a b := Nat.succ_pred_eq_of_pos hpos
      calc (ceil_div a b - 1) * b + b = (ceil_div a b - 1 + 1) * b := by
            rw [Nat.add_mul, Nat.one_mul]
        _ = ceil_div a b * b := by rw [hpred]
    have h1 : a + b - 1 < ceil_div a b * b := by omega
    have h2 : (a + b - 1) / b < ceil_div a b := (Nat.div_lt_iff_lt_mul hb).mpr h1
    have h3 : (a + b - 1) / b = ceil_div a b := rfl
    omega

/-- A sequence with increasing steps up to `count` is monotone there. -/
theorem mono_of_step (e : Nat → Nat) (count : Nat)
    (hstep : ∀ i, i < count → e i < e (i + 1)) :
    ∀ i j, i ≤ j → j ≤ count → e i ≤ e j := by
  intro i j hij hjc
  induction j with
  | zero =>
    have hi0 : i = 0 := Nat.le_zero.mp hij
    rw [hi0]
  | succ n ih =>
    rcases Nat.lt_or_ge i (n + 1) with hlt | hge
    · have h1 : e i ≤ e n := ih (by omega) (by omega)
      have h2 : e n < e (n + 1) := hstep n (by omega)
      omega
    · have hi : i = n + 1 := by omega
      rw [hi]

/-- Consecutive half-open intervals `[e i, e (i+1))` with increasing
boundaries starting at `e 0 = 0` partition `[0, e count)`: every point
lies in exactly one interval. -/
theorem interval_find (e : Nat → Nat) :
    ∀ count : Nat, 1 ≤ count → e 0 = 0 →
    (∀ i, i < count → e i < e (i + 1)) →
    ∀ y, y < e count → ∃! i, i < count ∧ e i ≤ y ∧ y < e (i + 1) := by
  intro count
  induction count with
  | zero => omega
  | succ n ih =>
    intro _ h0 hstep y hy
    rcases Nat.eq_zero_or_pos n with rfl | hn
    · refine ⟨0, ⟨Nat.zero_lt_one, by omega, hy⟩, ?_⟩
      rintro j ⟨hj, _, _⟩
      omega
    · by_cases hcase : y < e n
      · obtain ⟨i, ⟨hi, hle, hlt⟩, huniq⟩ :=
          ih hn h0 (fun i hi => hstep i (by omega)) y hcase
        refine ⟨i, ⟨by omega, hle, hlt⟩, ?_⟩
        rintro j ⟨hj, hle', hlt'⟩
        rcases Nat.lt_or_ge j n with hjn | hjn
        · exact huniq j ⟨hjn, hle', hlt'⟩
        · have hjn' : j = n := by omega
          rw [hjn'] at hle'
          omega
      · push_neg at hcase
        refine ⟨n, ⟨by omega, hcase, hy⟩, ?_⟩
        rintro j ⟨hj, hle', hlt'⟩
        rcases Nat.lt_or_ge j n with hjn | hjn
        · have hmono : e (j + 1) ≤ e n := mono_of_step e (n + 1) hstep (j + 1) n (by omega) (by omega)
          omega
        · omega

/-- In one dimension, with the geometry `init` guarantees
(`1 ≤ tileH`, and `2*overlap < tileH` whenever the image spans several
tiles) and the final tile count of `unet_filter.cpp:253`, the output tile
ranges are consecutive: each tile ends where the next begins and the last
ends at `H`; every range is nonempty. -/
theorem tileRow_core (H tileH overlap : Nat) (hH : 1 ≤ H) (htile : 1 ≤ tileH)
    (hov : tileH < H → 2 * overlap < tileH) :
    1 ≤ finalTileCount H tileH overlap ∧
    (∀ i, i < finalTileCount H tileH overlap →
      outEnd H tileH overlap (finalTileCount H tileH overlap) i =
        tileBound H tileH overlap (finalTileCount H tileH overlap) (i + 1)) ∧
    (∀ i, i < finalTileCount H tileH overlap →
      outBegin tileH overlap i < outEnd H tileH overlap (finalTileCount H tileH overlap) i) := by
  by_cases hcase : tileH < H
  · -- several tiles: count = ceil_div (H - 2*overlap) (tileH - 2*overlap)
    have hov' : 2 * overlap < tileH := hov hcase
    have hc : finalTileCount H tileH overlap =
        ceil_div (H - 2 * overlap) (tileH - 2 * overlap) := by
      simp [finalTileCount, hcase]
    have hs1 : 1 ≤ tileH - 2 * overlap := by omega
    have ha1 : 1 ≤ H - 2 * overlap := by omega
    have hub := le_ceil_div_mul (H - 2 * overlap) (tileH - 2 * overlap) ha1 hs1
    have hlb := ceil_div_pred_mul_lt (H - 2 * overlap) (tileH - 2 * overlap) ha1 hs1
    rw [← hc] at hub hlb
    have hq2 : 2 ≤ finalTileCount H tileH overlap := by
      by_contra hq1
      push_neg at hq1
      interval_cases hq : finalTileCount H tileH overlap
      · simp at hub; omega
      · simp at hub; omega
    refine ⟨by omega, ?_, ?_⟩
    · intro i hi
      have hsucc : (i + 1) * (tileH - 2 * overlap) =
          i * (tileH - 2 * overlap) + (tileH - 2 * overlap) := Nat.succ_mul _ _
      by_cases hlast : i + 1 < finalTileCount H tileH overlap
      · have hA : i * (tileH - 2 * overlap) ≤
            (finalTileCount H tileH overlap - 2) * (tileH - 2 * overlap) :=
          Nat.mul_le_mul_right _ (by omega)
        have hB : (finalTileCount H tileH overlap - 1) * (tileH - 2 * overlap) =
            (finalTileCount H tileH overlap - 2) * (tileH - 2 * overlap) +
              (tileH - 2 * overlap) := by
          have h2 : finalTileCount H tileH overlap - 1 =
              (finalTileCount H tileH overlap - 2) + 1 := by omega
          rw [h2, Nat.succ_mul]
        have hfit : tileH ≤ H - i * (tileH - 2 * overlap) := by omega
        have hmin : min (H - i * (tileH - 2 * overlap)) tileH = tileH :=
          Nat.min_eq_right hfit
        have hlt1 : i < finalTileCount H tileH overlap - 1 := by omega
        rcases Nat.eq_zero_or_pos i with rfl | hipos
        · simp only [outEnd, outBegin, tileSize2, tileSize1, tilePos, overlapBegin,
            overlapEnd, tileBound, if_pos hlast, if_pos hlt1, Nat.zero_mul, Nat.lt_irrefl,
            if_false, Nat.zero_add, Nat.sub_zero, Nat.zero_lt_succ, if_true, hmin]
          omega
        · simp only [outEnd, outBegin, tileSize2, tileSize1, tilePos, overlapBegin,
            overlapEnd, tileBound, if_pos hlast, if_pos hlt1, if_pos hipos,
            if_pos (Nat.zero_lt_succ i), hmin]
          omega
      · -- last tile
        have hieq : i = finalTileCount H tileH overlap - 1 := by omega
        have hC : finalTileCount H tileH overlap * (tileH - 2 * overlap) =
            (finalTileCount H tileH overlap - 1) * (tileH - 2 * overlap) +
              (tileH - 2 * overlap) := by
          have h2 : finalTileCount H tileH overlap =
              (finalTileCount H tileH overlap - 1) + 1 := by omega
          conv_lhs => rw [h2]
          rw [Nat.succ_mul]
        have hipos : 0 < i := by omega
        have hfit : H - i * (tileH - 2 * overlap) ≤ tileH := by
          rw [hieq]; omega
        have hmin : min (H - i * (tileH - 2 * overlap)) tileH =
            H - i * (tileH - 2 * overlap) := Nat.min_eq_left hfit
        have hbig : 2 * overlap < H - i * (tileH - 2 * overlap) := by
          rw [hieq]; omega
        have hnlt : ¬ (i < finalTileCount H tileH overlap - 1) := by omega
        simp only [outEnd, outBegin, tileSize2, tileSize1, tilePos, overlapBegin,
          overlapEnd, tileBound, if_neg hlast, if_neg hnlt, if_pos hipos, hmin]
        omega
    · intro i hi
      have hsucc : (i + 1) * (tileH - 2 * overlap) =
          i * (tileH - 2 * overlap) + (tileH - 2 * overlap) := Nat.succ_mul _ _
      by_cases hlast : i + 1 < finalTileCount H tileH overlap
      · have hA : i * (tileH - 2 * overlap) ≤
            (finalTileCount H tileH overlap - 2) * (tileH - 2 * overlap) :=
          Nat.mul_le_mul_right _ (by omega)
        have hB : (finalTileCount H tileH overlap - 1) * (tileH - 2 * overlap) =
            (finalTileCount H tileH overlap - 2) * (tileH - 2 * overlap) +
              (tileH - 2 * overlap) := by
          have h2 : finalTileCount H tileH overlap - 1 =
              (finalTileCount H tileH overlap - 2) + 1 := by omega
          rw [h2, Nat.succ_mul]
        have hfit : tileH ≤ H - i * (tileH - 2 * overlap) := by omega
        have hmin : min (H - i * (tileH - 2 * overlap)) tileH = tileH :=
          Nat.min_eq_right hfit
        have hlt1 : i < finalTileCount H tileH overlap - 1 := by omega
        rcases Nat.eq_zero_or_pos i with rfl | hipos
        · simp only [outEnd, outBegin, tileSize2, tileSize1, tilePos, overlapBegin,
            overlapEnd, if_pos hlt1, Nat.zero_mul, Nat.lt_irrefl, if_false,
            Nat.zero_add, Nat.sub_zero, hmin]
          omega
        · simp only [outEnd, outBegin, tileSize2, tileSize1, tilePos, overlapBegin,
            overlapEnd, if_pos hlt1, if_pos hipos, hmin]
          omega
      · have hieq : i = finalTileCount H tileH overlap - 1 := by omega
        have hC : finalTileCount H tileH overlap * (tileH - 2 * overlap) =
            (finalTileCount H tileH overlap - 1) * (tileH - 2 * overlap) +
              (tileH - 2 * overlap) := by
          have h2 : finalTileCount H tileH overlap =
              (finalTileCount H tileH overlap - 1) + 1 := by omega
          conv_lhs => rw [h2]
          rw [Nat.succ_mul]
        have hipos : 0 < i := by omega
        have hfit : H - i * (tileH - 2 * overlap) ≤ tileH := by
          rw [hieq]; omega
        have hmin : min (H - i * (tileH - 2 * overlap)) tileH =
            H - i * (tileH - 2 * overlap) := Nat.min_eq_left hfit
        have hbig : 2 * overlap < H - i * (tileH - 2 * overlap) := by
          rw [hieq]; omega
        have hnlt : ¬ (i < finalTileCount H tileH overlap - 1) := by omega
        simp only [outEnd, outBegin, tileSize2, tileSize1, tilePos, overlapBegin,
          overlapEnd, if_neg hnlt, if_pos hipos, hmin]
        omega
  · -- one tile covering the whole image
    have hc : finalTileCount H tileH overlap = 1 := by
      simp [finalTileCount, hcase]
    rw [hc]
    have hmin : min (H - 0 * (tileH - 2 * overlap)) tileH = H := by
      rw [Nat.zero_mul, Nat.sub_zero]
      exact Nat.min_eq_left (by omega)
    refine ⟨le_refl 1, ?_, ?_⟩
    · intro i hi
      have hi0 : i = 0 := by omega
      subst hi0
      simp only [outEnd, outBegin, tileSize2, tileSize1, tilePos, overlapBegin,
        overlapEnd, tileBound, Nat.lt_irrefl, if_false, Nat.zero_mul, Nat.zero_add,
        Nat.sub_zero, Nat.zero_sub, hmin]
      omega
    · intro i hi
      have hi0 : i = 0 := by omega
      subst hi0
      simp only [outEnd, outBegin, tileSize2, tileSize1, tilePos, overlapBegin,
        overlapEnd, Nat.lt_irrefl, if_false, Nat.zero_mul, Nat.zero_add,
        Nat.sub_zero, hmin]
      omega

/-- One-dimensional tile partition: under the geometry `init` guarantees,
the output tile ranges are contained in `[0, H)` and every point of
`[0, H)` lies in exactly one of them. -/
theorem tileRow_partition (H tileH overlap : Nat) (hH : 1 ≤ H) (htile : 1 ≤ tileH)
    (hov : tileH < H → 2 * overlap < tileH) :
    (∀ i y, i < finalTileCount H tileH overlap →
      inOutRange H tileH overlap (finalTileCount H tileH overlap) i y → y < H) ∧
    (∀ y, y < H →
      ∃! i, i < finalTileCount H tileH overlap ∧
        inOutRange H tileH overlap (finalTileCount H tileH overlap) i y) := by
  obtain ⟨hc1, hend, hne⟩ := tileRow_core H tileH overlap hH htile hov
  have hb0 : tileBound H tileH overlap (finalTileCount H tileH overlap) 0 = 0 := by
    simp [tileBound, outBegin, tilePos, overlapBegin, hc1, Nat.lt_of_lt_of_le Nat.zero_lt_one hc1]
  have hbc : tileBound H tileH overlap (finalTileCount H tileH overlap)
      (finalTileCount H tileH overlap) = H := by
    simp [tileBound]
  have hbi : ∀ i, i < finalTileCount H tileH overlap →
      tileBound H tileH overlap (finalTileCount H tileH overlap) i = outBegin tileH overlap i := by
    intro i hi
    simp [tileBound, hi]
  have hstep : ∀ i, i < finalTileCount H tileH overlap →
      tileBound H tileH overlap (finalTileCount H tileH overlap) i <
      tileBound H tileH overlap (finalTileCount H tileH overlap) (i + 1) := by
    intro i hi
    rw [hbi i hi, ← hend i hi]
    exact hne i hi
  have hequiv : ∀ i y, i < finalTileCount H tileH overlap →
      (inOutRange H tileH overlap (finalTileCount H tileH overlap) i y ↔
        tileBound H tileH overlap (finalTileCount H tileH overlap) i ≤ y ∧
        y < tileBound H tileH overlap (finalTileCount H tileH overlap) (i + 1)) := by
    intro i y hi
    rw [hbi i hi, ← hend i hi]
    exact Iff.rfl
  constructor
  · intro i y hi hr
    have h1 : y < tileBound H tileH overlap (finalTileCount H tileH overlap) (i + 1) :=
      ((hequiv i y hi).mp hr).2
    have h2 : tileBound H tileH overlap (finalTileCount H tileH overlap) (i + 1) ≤
        tileBound H tileH overlap (finalTileCount H tileH overlap)
          (finalTileCount H tileH overlap) :=
      mono_of_step _ _ hstep (i + 1) (finalTileCount H tileH overlap) (by omega) (le_refl _)
    omega
  · intro y hy
    obtain ⟨i, ⟨hi, hle, hlt⟩, huniq⟩ :=
      interval_find (tileBound H tileH overlap (finalTileCount H tileH overlap))
        (finalTileCount H tileH overlap) hc1 hb0 hstep y (by rw [hbc]; exact hy)
    refine ⟨i, ⟨hi, (hequiv i y hi).mpr ⟨hle, hlt⟩⟩, ?_⟩
    rintro j ⟨hj, hr⟩
    exact huniq j ⟨hj, (hequiv j y hj).mp hr⟩

/-- C5: for image sizes `H, W ≥ 1` and tile geometry as computed by
`init` (`tileH, tileW ≥ 1`; `2*overlap < tile` in any dimension the image
exceeds the tile, which the subdivision loop guarantees; tile counts from
`unet_filter.cpp:253-254`), the output tile rectangles of the execute-time
tile loop are contained in `[0, H) x [0, W)` and cover it exactly: every
output pixel lies in exactly one tile rectangle. -/
theorem C5_tile_coverage (H W tileH tileW overlap : Nat)
    (hH : 1 ≤ H) (hW : 1 ≤ W) (htH : 1 ≤ tileH) (htW : 1 ≤ tileW)
    (hovH : tileH < H → 2 * overlap < tileH) (hovW : tileW < W → 2 * overlap < tileW) :
    (∀ i j y x, i < finalTileCount H tileH overlap → j < finalTileCount W tileW overlap →
      inOutTile H W tileH tileW overlap (finalTileCount H tileH overlap)
        (finalTileCount W tileW overlap) i j y x → y < H ∧ x < W) ∧
    (∀ y x, y < H → x < W →
      ∃! p : Nat × Nat, p.1 < finalTileCount H tileH overlap ∧
        p.2 < finalTileCount W tileW overlap ∧
        inOutTile H W tileH tileW overlap (finalTileCount H tileH overlap)
          (finalTileCount W tileW overlap) p.1 p.2 y x) := by
  obtain ⟨hsubH, hfindH⟩ := tileRow_partition H tileH overlap hH htH hovH
  obtain ⟨hsubW, hfindW⟩ := tileRow_partition W tileW overlap hW htW hovW
  constructor
  · intro i j y x hi hj hr
    exact ⟨hsubH i y hi hr.1, hsubW j x hj hr.2⟩
  · intro y x hy hx
    obtain ⟨i, ⟨hi, hri⟩, huniqi⟩ := hfindH y hy
    obtain ⟨j, ⟨hj, hrj⟩, huniqj⟩ := hfindW x hx
    refine ⟨(i, j), ⟨hi, hj, hri, hrj⟩, ?_⟩
    rintro ⟨i', j'⟩ ⟨hi', hj', hr'⟩
    have h1 : i' = i := huniqi i' ⟨hi', hr'.1⟩
    have h2 : j' = j := huniqj j' ⟨hj', hr'.2⟩
    rw [h1, h2]

/-- C5 witness: `H = W = 5`, `tileH = tileW = 3`, `overlap = 1`
(tile count 3 per dimension), with the geometry hypotheses discharged by
computation. -/
theorem C5_tile_coverage_witness :
    (∀ i j y x, i < finalTileCount 5 3 1 → j < finalTileCount 5 3 1 →
      inOutTile 5 5 3 3 1 (finalTileCount 5 3 1) (finalTileCount 5 3 1) i j y x →
      y < 5 ∧ x < 5) ∧
    (∀ y x, y < 5 → x < 5 →
      ∃! p : Nat × Nat, p.1 < finalTileCount 5 3 1 ∧ p.2 < finalTileCount 5 3 1 ∧
        inOutTile 5 5 3 3 1 (finalTileCount 5 3 1) (finalTileCount 5 3 1) p.1 p.2 y x) :=
  C5_tile_coverage 5 5 3 3 1 (by decide) (by decide) (by decide) (by decide)
    (by decide) (by decide)

/-! ### C2/C3: the memory planner.  Store-indexing helpers first. -/

/-- Setting one record leaves the others unchanged. -/
theorem allocAt_set_ne (allocs : List TensorAlloc) (m k : Nat) (v : TensorAlloc)
    (h : k ≠ m) : allocAt (allocs.set m v) k = allocAt allocs k := by
  unfold allocAt
  rw [List.getD_eq_getElem?_getD, List.getD_eq_getElem?_getD, List.getElem?_set,
    if_neg (fun he => h he.symm)]

/-- Reading back a set record. -/
theorem allocAt_set_eq (allocs : List TensorAlloc) (m : Nat) (v : TensorAlloc)
    (h : m < allocs.length) : allocAt (allocs.set m v) m = v := by
  unfold allocAt
  rw [List.getD_eq_getElem?_getD, List.getElem?_set, if_pos rfl, if_pos h]
  rfl

/-- Equal shapes give equal `byteSize`. -/
theorem shape_byteSize {a b : TensorAlloc} (h : allocShape a = allocShape b) :
    a.byteSize = b.byteSize := congrArg (fun p => p.1) h

/-- Equal shapes give equal `firstOpID`. -/
theorem shape_firstOpID {a b : TensorAlloc} (h : allocShape a = allocShape b) :
    a.firstOpID = b.firstOpID := congrArg (fun p => p.2.1) h

/-- Equal shapes give equal `lastOpID`. -/
theorem shape_lastOpID {a b : TensorAlloc} (h : allocShape a = allocShape b) :
    a.lastOpID = b.lastOpID := congrArg (fun p => p.2.2.1) h

/-- Equal shapes give equal `next`. -/
theorem shape_next {a b : TensorAlloc} (h : allocShape a = allocShape b) :
    a.next = b.next := congrArg (fun p => p.2.2.2.1) h

/-- Writing only the offset preserves the shape. -/
theorem shape_set_byteOffset (a : TensorAlloc) (x : Nat) :
    allocShape { a with byteOffset := x } = allocShape a := rfl

/-- Projection of an offset update. -/
theorem update_byteOffset_eq (a : TensorAlloc) (x : Nat) :
    ({ a with byteOffset := x } : TensorAlloc).byteOffset = x := rfl

/-- An offset update keeps the size. -/
theorem update_byteSize_eq (a : TensorAlloc) (x : Nat) :
    ({ a with byteOffset := x } : TensorAlloc).byteSize = a.byteSize := rfl

/-- Equal shapes transfer `timeOverlap`. -/
theorem timeOverlap_of_shape {a a' b b' : TensorAlloc}
    (ha : allocShape a = allocShape a') (hb : allocShape b = allocShape b') :
    timeOverlap a b ↔ timeOverlap a' b' := by
  unfold timeOverlap
  rw [shape_firstOpID ha, shape_firstOpID hb, shape_lastOpID ha, shape_lastOpID hb]

/-- `insertBySize` permutes. -/
theorem insertBySize_perm (c : Chunk) : ∀ l : List Chunk, (insertBySize c l).Perm (c :: l) := by
  intro l
  induction l with
  | nil => exact List.Perm.refl _
  | cons d rest ih =>
    unfold insertBySize
    by_cases h : d.byteSize < c.byteSize
    · rw [if_pos h]
    · rw [if_neg h]
      exact (List.Perm.cons d ih).trans (List.Perm.swap c d rest)

/-- The chunk sort is a permutation. -/
theorem sortChunksDesc_perm (l : List Chunk) : (sortChunksDesc l).Perm l := by
  induction l with
  | nil => exact List.Perm.refl _
  | cons c rest ih =>
    exact (insertBySize_perm c (sortChunksDesc rest)).trans (List.Perm.cons c ih)

/-- Membership across `insertActive`. -/
theorem insertActive_mem (allocs : List TensorAlloc) (i : Nat) :
    ∀ (l : List Nat) (k : Nat), k ∈ insertActive allocs i l ↔ k = i ∨ k ∈ l := by
  intro l
  induction l with
  | nil =>
    intro k
    simp [insertActive]
  | cons j rest ih =>
    intro k
    unfold insertActive
    by_cases h : (allocAt allocs i).byteOffset < (allocAt allocs j).byteOffset
    · rw [if_pos h]
      simp [List.mem_cons]
    · rw [if_neg h]
      simp only [List.mem_cons, ih k]
      tauto

/-- `insertActive` preserves freedom from duplicates. -/
theorem insertActive_nodup (allocs : List TensorAlloc) (i : Nat) :
    ∀ l : List Nat, i ∉ l → l.Nodup → (insertActive allocs i l).Nodup := by
  intro l
  induction l with
  | nil =>
    intro _ _
    simp [insertActive]
  | cons j rest ih =>
    intro hni hnd
    have hij : i ≠ j := fun he => hni (he ▸ List.mem_cons_self j rest)
    obtain ⟨hjr, hndr⟩ := List.nodup_cons.mp hnd
    unfold insertActive
    by_cases h : (allocAt allocs i).byteOffset < (allocAt allocs j).byteOffset
    · rw [if_pos h]
      refine List.nodup_cons.mpr ⟨?_, hnd⟩
      intro hmem
      rcases List.mem_cons.mp hmem with he | hm
      · exact hij he
      · exact hni (List.mem_cons_of_mem _ hm)
    · rw [if_neg h]
      refine List.nodup_cons.mpr ⟨?_, ih (fun hm => hni (List.mem_cons_of_mem _ hm)) hndr⟩
      intro hmem
      rcases (insertActive_mem allocs i rest j).mp hmem with he | hm
      · exact hij he.symm
      · exact hjr hm

/-- `insertActive` preserves sortedness by offset. -/
theorem insertActive_sorted (allocs : List TensorAlloc) (i : Nat) :
    ∀ l : List Nat, ActiveSorted allocs l → ActiveSorted allocs (insertActive allocs i l) := by
  intro l
  induction l with
  | nil =>
    intro _
    simp [insertActive, ActiveSorted]
  | cons j rest ih =>
    intro hs
    obtain ⟨hjall, hrest⟩ := List.pairwise_cons.mp hs
    unfold insertActive
    by_cases h : (allocAt allocs i).byteOffset < (allocAt allocs j).byteOffset
    · rw [if_pos h]
      refine List.pairwise_cons.mpr ⟨?_, hs⟩
      intro k hk
      rcases List.mem_cons.mp hk with rfl | hm
      · exact Nat.le_of_lt h
      · exact Nat.le_trans (Nat.le_of_lt h) (hjall k hm)
    · rw [if_neg h]
      refine List.pairwise_cons.mpr ⟨?_, ih hrest⟩
      intro k hk
      rcases (insertActive_mem allocs i rest k).mp hk with rfl | hm
      · exact Nat.le_of_not_lt h
      · exact hjall k hm

/-- Specification of the best-fit walk (`graph.cpp:361-385`): provided the
active list is sorted by offset and any incoming best gap clears every
remaining offset, the resolved offset (a) avoids the extent of every
time-overlapping active allocation and (b) is at least `cur` unless it is
the incoming best offset. -/
theorem findBestLoop_spec (allocs : List TensorAlloc) (cf cl csz : Nat) :
    ∀ (act : List Nat) (cur : Nat) (best : Option (Nat × Nat)),
    ActiveSorted allocs act →
    (∀ bo bg, best = some (bo, bg) → ∀ k ∈ act, bo + csz ≤ (allocAt allocs k).byteOffset) →
    (∀ k ∈ act,
        cf ≤ (allocAt allocs k).lastOpID → (allocAt allocs k).firstOpID ≤ cl →
        (allocAt allocs k).byteOffset + (allocAt allocs k).byteSize ≤
          resolveBest (findBestLoop allocs cf cl csz act cur best) ∨
        resolveBest (findBestLoop allocs cf cl csz act cur best) + csz ≤
          (allocAt allocs k).byteOffset) ∧
    (cur ≤ resolveBest (findBestLoop allocs cf cl csz act cur best) ∨
      ∃ bg, best = some (resolveBest (findBestLoop allocs cf cl csz act cur best), bg)) := by
  intro act
  induction act with
  | nil =>
    intro cur best _ _
    refine ⟨fun k hk => absurd hk (List.not_mem_nil k), ?_⟩
    cases best with
    | none => exact Or.inl (Nat.le_refl _)
    | some b =>
      obtain ⟨bo, bg⟩ := b
      exact Or.inr ⟨bg, rfl⟩
  | cons i rest ih =>
    intro cur best hsorted hbest
    obtain ⟨hiall, hrest⟩ := List.pairwise_cons.mp hsorted
    by_cases hskip : (allocAt allocs i).lastOpID < cf ∨ cl < (allocAt allocs i).firstOpID
    · have hunf : findBestLoop allocs cf cl csz (i :: rest) cur best =
          findBestLoop allocs cf cl csz rest cur best := by
        simp only [findBestLoop]
        rw [if_pos hskip]
      rw [hunf]
      obtain ⟨ih1, ih2⟩ := ih cur best hrest
        (fun bo bg hb k hk => hbest bo bg hb k (List.mem_cons_of_mem _ hk))
      refine ⟨?_, ih2⟩
      intro k hk hlast hfirst
      rcases List.mem_cons.mp hk with rfl | hm
      · exact absurd hskip (by omega)
      · exact ih1 k hm hlast hfirst
    · by_cases hgood : (decide (cur + csz ≤ (allocAt allocs i).byteOffset) &&
          gapOk best ((allocAt allocs i).byteOffset - cur)) = true
      · -- a new best gap is recorded at offset cur
        have hunf : findBestLoop allocs cf cl csz (i :: rest) cur best =
            findBestLoop allocs cf cl csz rest
              (max cur ((allocAt allocs i).byteOffset + (allocAt allocs i).byteSize))
              (some (cur, (allocAt allocs i).byteOffset - cur)) := by
          simp only [findBestLoop]
          rw [if_neg hskip, hgood]
          simp
        have hcfit : cur + csz ≤ (allocAt allocs i).byteOffset := by
          have := (Bool.and_eq_true _ _).mp hgood
          exact of_decide_eq_true this.1
        rw [hunf]
        obtain ⟨ih1, ih2⟩ := ih
          (max cur ((allocAt allocs i).byteOffset + (allocAt allocs i).byteSize))
          (some (cur, (allocAt allocs i).byteOffset - cur))
          hrest
          (fun bo bg hb k hk => by
            injection hb with hb'
            injection hb' with h1 h2
            subst h1
            exact Nat.le_trans hcfit (hiall k hk))
        refine ⟨?_, ?_⟩
        · intro k hk hlast hfirst
          rcases List.mem_cons.mp hk with rfl | hm
          · rcases ih2 with hge | ⟨bg, hb⟩
            · exact Or.inl (Nat.le_trans (Nat.le_trans (Nat.le_max_right _ _) hge) (Nat.le_refl _))
            · injection hb with hb'
              injection hb' with h1 _
              rw [← h1]
              exact Or.inr hcfit
          · exact ih1 k hm hlast hfirst
        · rcases ih2 with hge | ⟨bg, hb⟩
          · exact Or.inl (Nat.le_trans (Nat.le_max_left _ _) hge)
          · injection hb with hb'
            injection hb' with h1 _
            rw [← h1]
            exact Or.inl (Nat.le_refl _)
      · -- the incoming best is kept
        have hunf : findBestLoop allocs cf cl csz (i :: rest) cur best =
            findBestLoop allocs cf cl csz rest
              (max cur ((allocAt allocs i).byteOffset + (allocAt allocs i).byteSize))
              best := by
          simp only [findBestLoop]
          rw [if_neg hskip]
          rw [Bool.not_eq_true] at hgood
          rw [hgood]
          simp
        rw [hunf]
        obtain ⟨ih1, ih2⟩ := ih
          (max cur ((allocAt allocs i).byteOffset + (allocAt allocs i).byteSize))
          best
          hrest
          (fun bo bg hb k hk => hbest bo bg hb k (List.mem_cons_of_mem _ hk))
        refine ⟨?_, ?_⟩
        · intro k hk hlast hfirst
          rcases List.mem_cons.mp hk with rfl | hm
          · rcases ih2 with hge | ⟨bg, hb⟩
            · exact Or.inl (Nat.le_trans (Nat.le_max_right _ _) hge)
            · exact Or.inr (hbest _ bg hb k (List.mem_cons_self _ _))
          · exact ih1 k hm hlast hfirst
        · rcases ih2 with hge | ⟨bg, hb⟩
          · exact Or.inl (Nat.le_trans (Nat.le_max_left _ _) hge)
          · exact Or.inr ⟨bg, hb⟩

/-- Prefix sums of a list of naturals are monotone. -/
theorem sum_take_mono : ∀ (l : List Nat) (m n : Nat), m ≤ n →
    (l.take m).sum ≤ (l.take n).sum := by
  intro l
  induction l with
  | nil => intro m n _; simp
  | cons a rest ih =>
    intro m n hmn
    cases m with
    | zero => simp
    | succ m' =>
      cases n with
      | zero => omega
      | succ n' =>
        simp only [List.take_succ_cons, List.sum_cons]
        exact Nat.add_le_add_left (ih m' n' (by omega)) a

/-- Placement preserves the store length. -/
theorem placeMembers_length : ∀ (ms : List Nat) (off : Nat) (allocs : List TensorAlloc)
    (active : List Nat),
    (placeMembers ms off allocs active).1.length = allocs.length := by
  intro ms
  induction ms with
  | nil => intro off allocs active; rfl
  | cons m rest ih =>
    intro off allocs active
    unfold placeMembers
    rw [ih]
    exact List.length_set allocs m _

/-- Placement leaves non-member records untouched. -/
theorem placeMembers_untouched : ∀ (ms : List Nat) (off : Nat) (allocs : List TensorAlloc)
    (active : List Nat) (k : Nat), k ∉ ms →
    allocAt (placeMembers ms off allocs active).1 k = allocAt allocs k := by
  intro ms
  induction ms with
  | nil => intro off allocs active k _; rfl
  | cons m rest ih =>
    intro off allocs active k hk
    unfold placeMembers
    rw [ih _ _ _ k (fun hm => hk (List.mem_cons_of_mem _ hm)),
      allocAt_set_ne _ _ _ _ (fun he => hk (by rw [he]; exact List.mem_cons_self m rest))]

/-- Placement assigns member `t` of the chunk the offset
`off + (sum of the sizes of the previous members)` and changes nothing
else in its record. -/
theorem placeMembers_member : ∀ (ms : List Nat) (off : Nat) (allocs : List TensorAlloc)
    (active : List Nat), ms.Nodup → (∀ m ∈ ms, m < allocs.length) →
    ∀ t (ht : t < ms.length),
      allocAt (placeMembers ms off allocs active).1 (ms.get ⟨t, ht⟩) =
        { allocAt allocs (ms.get ⟨t, ht⟩) with
          byteOffset := off + ((ms.take t).map fun m => (allocAt allocs m).byteSize).sum } := by
  intro ms
  induction ms with
  | nil => intro off allocs active _ _ t ht; simp at ht
  | cons m rest ih =>
    intro off allocs active hnd hval t ht
    obtain ⟨hmr, hndr⟩ := List.nodup_cons.mp hnd
    have hmlen : m < allocs.length := hval m (List.mem_cons_self _ _)
    cases t with
    | zero =>
      show allocAt (placeMembers rest _ _ _).1 m = _
      rw [placeMembers_untouched rest _ _ _ m hmr,
        allocAt_set_eq _ _ _ hmlen]
      simp
    | succ t' =>
      have ht' : t' < rest.length := by
        simp only [List.length_cons] at ht
        omega
      show allocAt (placeMembers rest _ _ _).1 (rest.get ⟨t', ht'⟩) = _
      have hvalr : ∀ r ∈ rest, r < (allocs.set m
          { allocAt allocs m with byteOffset := off }).length := by
        intro r hr
        rw [List.length_set]
        exact hval r (List.mem_cons_of_mem _ hr)
      rw [ih _ _ _ hndr hvalr t' ht']
      have hne : rest.get ⟨t', ht'⟩ ≠ m := fun he => hmr (he ▸ List.get_mem rest t' ht')
      rw [allocAt_set_ne _ _ _ _ hne]
      have hsizes : ((rest.take t').map fun r =>
          (allocAt (allocs.set m { allocAt allocs m with byteOffset := off }) r).byteSize).sum =
          ((rest.take t').map fun r => (allocAt allocs r).byteSize).sum := by
        apply congrArg
        apply List.map_congr_left
        intro r hr
        have hrm : r ≠ m := fun he => hmr (he ▸ List.mem_of_mem_take hr)
        rw [allocAt_set_ne _ _ _ _ hrm]
      rw [hsizes]
      have htake : (((m :: rest).take (t' + 1)).map fun r =>
          (allocAt allocs r).byteSize).sum =
          (allocAt allocs m).byteSize +
            ((rest.take t').map fun r => (allocAt allocs r).byteSize).sum := by
        simp [List.take_succ_cons]
      rw [htake, ← Nat.add_assoc]
      rfl

/-- The final offset returned by placement is `off` plus the total size. -/
theorem placeMembers_endOff : ∀ (ms : List Nat) (off : Nat) (allocs : List TensorAlloc)
    (active : List Nat), ms.Nodup →
    (placeMembers ms off allocs active).2.2 =
      off + (ms.map fun m => (allocAt allocs m).byteSize).sum := by
  intro ms
  induction ms with
  | nil => intro off allocs active _; simp [placeMembers]
  | cons m rest ih =>
    intro off allocs active hnd
    obtain ⟨hmr, hndr⟩ := List.nodup_cons.mp hnd
    unfold placeMembers
    rw [ih _ _ _ hndr]
    have hsizes : (rest.map fun r =>
        (allocAt (allocs.set m { allocAt allocs m with byteOffset := off }) r).byteSize).sum =
        (rest.map fun r => (allocAt allocs r).byteSize).sum := by
      apply congrArg
      apply List.map_congr_left
      intro r hr
      rw [allocAt_set_ne _ _ _ _ (fun he => hmr (by rw [← he]; exact hr))]
    rw [hsizes]
    simp only [List.map_cons, List.sum_cons]
    omega

/-- Membership in the active list after placement. -/
theorem placeMembers_active_mem : ∀ (ms : List Nat) (off : Nat) (allocs : List TensorAlloc)
    (active : List Nat) (k : Nat),
    k ∈ (placeMembers ms off allocs active).2.1 ↔ k ∈ ms ∨ k ∈ active := by
  intro ms
  induction ms with
  | nil =>
    intro off allocs active k
    simp [placeMembers]
  | cons m rest ih =>
    intro off allocs active k
    unfold placeMembers
    rw [ih]
    rw [insertActive_mem]
    simp only [List.mem_cons]
    tauto

/-- After placement the active list is duplicate-free and sorted in the
updated store. -/
theorem placeMembers_active_good : ∀ (ms : List Nat) (off : Nat) (allocs : List TensorAlloc)
    (active : List Nat), ms.Nodup → (∀ m ∈ ms, m < allocs.length) →
    (∀ k ∈ active, k ∉ ms) → active.Nodup → ActiveSorted allocs active →
    (placeMembers ms off allocs active).2.1.Nodup ∧
      ActiveSorted (placeMembers ms off allocs active).1
        (placeMembers ms off allocs active).2.1 := by
  intro ms
  induction ms with
  | nil =>
    intro off allocs active _ _ _ hnd hs
    exact ⟨hnd, hs⟩
  | cons m rest ih =>
    intro off allocs active hnd hval hfresh hand hs
    obtain ⟨hmr, hndr⟩ := List.nodup_cons.mp hnd
    unfold placeMembers
    have hmnotact : m ∉ active := fun hm => hfresh m hm (List.mem_cons_self _ _)
    have hs1 : ActiveSorted (allocs.set m { allocAt allocs m with byteOffset := off }) active := by
      apply List.Pairwise.imp_of_mem ?_ hs
      intro a b ha hb hab
      rw [allocAt_set_ne _ _ _ _ (fun he => hmnotact (by rw [← he]; exact ha)),
        allocAt_set_ne _ _ _ _ (fun he => hmnotact (by rw [← he]; exact hb))]
      exact hab
    apply ih
    · exact hndr
    · intro r hr
      rw [List.length_set]
      exact hval r (List.mem_cons_of_mem _ hr)
    · intro k hk
      rcases (insertActive_mem _ m active k).mp hk with rfl | hm
      · exact hmr
      · exact fun hkr => hfresh k hm (List.mem_cons_of_mem _ hkr)
    · exact insertActive_nodup _ m active hmnotact hand
    · exact insertActive_sorted _ m active hs1

/-- Placing one chunk preserves the planner invariant, and the active
list afterwards holds exactly the chunk's members and the previously
active allocations. -/
theorem placeChunk_inv (orig : List TensorAlloc) (st : PlanState) (c : Chunk)
    (hinv : PlanInv orig st) (hcwf : ChunkWF orig c)
    (hfresh : ∀ k ∈ st.active, k ∉ c.members) :
    PlanInv orig (placeChunk st c) ∧
    (∀ k, k ∈ (placeChunk st c).active ↔ k ∈ c.members ∨ k ∈ st.active) := by
  obtain ⟨hlen, hshape, hand, hsort, hdisj⟩ := hinv
  obtain ⟨hival, hsum, hnd, hvalid⟩ := hcwf
  have hval' : ∀ m ∈ c.members, m < st.allocs.length := by
    intro m hm
    rw [hlen]
    exact hvalid m hm
  obtain ⟨hfits0, _⟩ := findBestLoop_spec st.allocs c.firstOpID c.lastOpID c.byteSize
      st.active 0 none hsort (fun bo bg hb => by cases hb)
  have hchoose : chooseOffset st.allocs c.firstOpID c.lastOpID c.byteSize st.active =
      resolveBest (findBestLoop st.allocs c.firstOpID c.lastOpID c.byteSize st.active 0 none) := by
    unfold chooseOffset resolveBest
    cases hfb : findBestLoop st.allocs c.firstOpID c.lastOpID c.byteSize st.active 0 none with
    | mk cur bestv =>
      cases bestv with
      | none => rfl
      | some p => obtain ⟨bo, bg⟩ := p; rfl
  set off := chooseOffset st.allocs c.firstOpID c.lastOpID c.byteSize st.active with hoffdef
  have hfits : ∀ k ∈ st.active,
      c.firstOpID ≤ (allocAt st.allocs k).lastOpID →
      (allocAt st.allocs k).firstOpID ≤ c.lastOpID →
      (allocAt st.allocs k).byteOffset + (allocAt st.allocs k).byteSize ≤ off ∨
      off + c.byteSize ≤ (allocAt st.allocs k).byteOffset := by
    intro k hk h1 h2
    rw [hchoose]
    exact hfits0 k hk h1 h2
  have hAllocs : (placeChunk st c).allocs = (placeMembers c.members off st.allocs st.active).1 := rfl
  have hActive : (placeChunk st c).active = (placeMembers c.members off st.allocs st.active).2.1 := rfl
  -- total chunk size in the current store
  have hsum' : c.byteSize = (c.members.map fun m => (allocAt st.allocs m).byteSize).sum := by
    rw [hsum]
    apply congrArg
    apply List.map_congr_left
    intro m _
    exact (shape_byteSize (hshape m)).symm
  -- record of a member after placement
  have hmem_rec : ∀ t (ht : t < c.members.length),
      allocAt (placeChunk st c).allocs (c.members.get ⟨t, ht⟩) =
        { allocAt st.allocs (c.members.get ⟨t, ht⟩) with
          byteOffset := off +
            ((c.members.take t).map fun m => (allocAt st.allocs m).byteSize).sum } := by
    intro t ht
    rw [hAllocs]
    exact placeMembers_member c.members off st.allocs st.active hnd hval' t ht
  -- a member's extent stays inside the chunk's extent
  have hext : ∀ t (ht : t < c.members.length),
      ((c.members.take t).map fun m => (allocAt st.allocs m).byteSize).sum +
        (allocAt st.allocs (c.members.get ⟨t, ht⟩)).byteSize ≤ c.byteSize := by
    intro t ht
    have hlt : t < (c.members.map fun m => (allocAt st.allocs m).byteSize).length := by
      rw [List.length_map]
      exact ht
    have hsucc := List.sum_take_succ (c.members.map fun m => (allocAt st.allocs m).byteSize) t hlt
    have hgetm : (c.members.map fun m => (allocAt st.allocs m).byteSize)[t] =
        (allocAt st.allocs (c.members.get ⟨t, ht⟩)).byteSize := by
      rw [List.getElem_map]
      rfl
    have htk : ((c.members.map fun m => (allocAt st.allocs m).byteSize).take t).sum =
        ((c.members.take t).map fun m => (allocAt st.allocs m).byteSize).sum := by
      rw [List.map_take]
    have hmono := sum_take_mono (c.members.map fun m => (allocAt st.allocs m).byteSize)
      (t + 1) (c.members.map fun m => (allocAt st.allocs m).byteSize).length (by omega)
    rw [List.take_length] at hmono
    rw [hsucc, hgetm, htk] at hmono
    rw [hsum']
    omega
  -- untouched records
  have hold_rec : ∀ k, k ∉ c.members →
      allocAt (placeChunk st c).allocs k = allocAt st.allocs k := by
    intro k hk
    rw [hAllocs]
    exact placeMembers_untouched c.members off st.allocs st.active k hk
  -- ordering of two members
  have horder : ∀ t u (ht : t < c.members.length) (hu : u < c.members.length), t < u →
      off + ((c.members.take t).map fun m => (allocAt st.allocs m).byteSize).sum +
        (allocAt st.allocs (c.members.get ⟨t, ht⟩)).byteSize ≤
      off + ((c.members.take u).map fun m => (allocAt st.allocs m).byteSize).sum := by
    intro t u ht hu htu
    have hlt : t < (c.members.map fun m => (allocAt st.allocs m).byteSize).length := by
      rw [List.length_map]; exact ht
    have hsucc := List.sum_take_succ (c.members.map fun m => (allocAt st.allocs m).byteSize) t hlt
    have hgetm : (c.members.map fun m => (allocAt st.allocs m).byteSize)[t] =
        (allocAt st.allocs (c.members.get ⟨t, ht⟩)).byteSize := by
      rw [List.getElem_map]
      rfl
    have hmono := sum_take_mono (c.members.map fun m => (allocAt st.allocs m).byteSize)
      (t + 1) u (by omega)
    have htk : ∀ x, ((c.members.map fun m => (allocAt st.allocs m).byteSize).take x).sum =
        ((c.members.take x).map fun m => (allocAt st.allocs m).byteSize).sum := by
      intro x
      rw [List.map_take]
    simp only [htk] at hsucc hmono
    rw [hsucc, hgetm] at hmono
    omega
  have hshape_new : ∀ k, allocShape (allocAt (placeChunk st c).allocs k) =
      allocShape (allocAt orig k) := by
    intro k
    by_cases hk : k ∈ c.members
    · obtain ⟨⟨t, ht⟩, hget⟩ := List.mem_iff_get.mp hk
      rw [← hget, hmem_rec t ht, shape_set_byteOffset]
      rw [hget]
      exact hshape k
    · rw [hold_rec k hk]
      exact hshape k
  have hmemact : ∀ k, k ∈ (placeChunk st c).active ↔ k ∈ c.members ∨ k ∈ st.active := by
    intro k
    rw [hActive]
    exact placeMembers_active_mem c.members off st.allocs st.active k
  obtain ⟨hand', hsort'⟩ :=
    placeMembers_active_good c.members off st.allocs st.active hnd hval' hfresh hand hsort
  refine ⟨⟨?_, hshape_new, ?_, ?_, ?_⟩, hmemact⟩
  · rw [hAllocs, placeMembers_length]
    exact hlen
  · rw [hActive]
    exact hand'
  · rw [hActive, hAllocs]
    exact hsort'
  · -- pairwise disjointness
    intro i hi j hj hne hover
    have hoveq : ∀ a b : Nat, timeOverlap (allocAt (placeChunk st c).allocs a)
        (allocAt (placeChunk st c).allocs b) ↔
        timeOverlap (allocAt st.allocs a) (allocAt st.allocs b) := by
      intro a b
      exact timeOverlap_of_shape
        ((hshape_new a).trans (hshape a).symm) ((hshape_new b).trans (hshape b).symm)
    have hover' : timeOverlap (allocAt st.allocs i) (allocAt st.allocs j) :=
      (hoveq i j).mp hover
    -- a member's chunk-interval covers its own interval (in the current store)
    have hival' : ∀ m ∈ c.members,
        c.firstOpID ≤ (allocAt st.allocs m).firstOpID ∧
        (allocAt st.allocs m).lastOpID ≤ c.lastOpID := by
      intro m hm
      have h1 := hival m hm
      rw [shape_firstOpID (hshape m), shape_lastOpID (hshape m)]
      exact h1
    -- disjointness of a member against an old active allocation
    have hcross : ∀ t (ht : t < c.members.length) (k : Nat), k ∈ st.active →
        k ∉ c.members →
        timeOverlap (allocAt st.allocs (c.members.get ⟨t, ht⟩)) (allocAt st.allocs k) →
        bytesDisjoint (allocAt (placeChunk st c).allocs (c.members.get ⟨t, ht⟩))
          (allocAt (placeChunk st c).allocs k) := by
      intro t ht k hk hknm hovk
      have hm := List.get_mem c.members t ht
      obtain ⟨hif, hil⟩ := hival' _ hm
      obtain ⟨ho1, ho2⟩ := hovk
      have hfk := hfits k hk (by omega) (by omega)
      rw [hmem_rec t ht, hold_rec k hknm]
      have hx := hext t ht
      unfold bytesDisjoint
      simp only [update_byteOffset_eq, update_byteSize_eq]
      rcases hfk with hleft | hright
      · right
        omega
      · left
        omega
    rcases (hmemact i).mp hi with him | hio
    · rcases (hmemact j).mp hj with hjm | hjo
      · -- both members
        obtain ⟨⟨t, ht⟩, hgt⟩ := List.mem_iff_get.mp him
        obtain ⟨⟨u, hu⟩, hgu⟩ := List.mem_iff_get.mp hjm
        have htu : t ≠ u := by
          intro he
          apply hne
          have hfe : (⟨t, ht⟩ : Fin c.members.length) = ⟨u, hu⟩ := Fin.ext he
          rw [← hgt, ← hgu, hfe]
        rcases Nat.lt_or_ge t u with hlt | hge
        · have := horder t u ht hu hlt
          rw [← hgt, ← hgu, hmem_rec t ht, hmem_rec u hu]
          unfold bytesDisjoint
          simp only [update_byteOffset_eq, update_byteSize_eq]
          left
          omega
        · have hult : u < t := by omega
          have := horder u t hu ht hult
          rw [← hgt, ← hgu, hmem_rec t ht, hmem_rec u hu]
          unfold bytesDisjoint
          simp only [update_byteOffset_eq, update_byteSize_eq]
          right
          omega
      · -- i member, j old
        obtain ⟨⟨t, ht⟩, hgt⟩ := List.mem_iff_get.mp him
        have hjnm : j ∉ c.members := fun hjm => hfresh j hjo hjm
        rw [← hgt]
        apply hcross t ht j hjo hjnm
        rw [hgt]
        exact hover'
    · rcases (hmemact j).mp hj with hjm | hjo
      · -- i old, j member: symmetric
        obtain ⟨⟨u, hu⟩, hgu⟩ := List.mem_iff_get.mp hjm
        have hinm : i ∉ c.members := fun him => hfresh i hio him
        have hsym : timeOverlap (allocAt st.allocs (c.members.get ⟨u, hu⟩))
            (allocAt st.allocs i) := by
          rw [hgu]
          exact ⟨hover'.2, hover'.1⟩
        have := hcross u hu i hio hinm hsym
        rw [← hgu]
        unfold bytesDisjoint at this ⊢
        tauto
      · -- both old
        have hirec := hold_rec i (fun him => hfresh i hio him)
        have hjrec := hold_rec j (fun hjm => hfresh j hjo hjm)
        rw [hirec, hjrec]
        exact hdisj i hio j hjo hne hover'

/-- The placement fold preserves the invariant, and the final active list
holds exactly the previously active allocations and all chunk members. -/
theorem placeChunks_fold (orig : List TensorAlloc) :
    ∀ (cs : List Chunk) (st : PlanState),
    PlanInv orig st →
    (∀ c ∈ cs, ChunkWF orig c) →
    (st.active ++ cs.flatMap fun c => c.members).Nodup →
    PlanInv orig (cs.foldl placeChunk st) ∧
    (∀ k, k ∈ (cs.foldl placeChunk st).active ↔
      k ∈ st.active ∨ ∃ c ∈ cs, k ∈ c.members) := by
  intro cs
  induction cs with
  | nil =>
    intro st hinv _ _
    refine ⟨hinv, fun k => ?_⟩
    simp
  | cons c cs' ih =>
    intro st hinv hcwf hnd
    rw [List.flatMap_cons] at hnd
    rw [List.nodup_append] at hnd
    obtain ⟨h1, h2, hdisj⟩ := hnd
    rw [List.nodup_append] at h2
    obtain ⟨h2a, h2b, h2disj⟩ := h2
    have hfresh : ∀ k ∈ st.active, k ∉ c.members := by
      intro k hk hkm
      exact hdisj hk (List.mem_append.mpr (Or.inl hkm))
    obtain ⟨hinv', hact'⟩ :=
      placeChunk_inv orig st c hinv (hcwf c (List.mem_cons_self _ _)) hfresh
    have hnd' : ((placeChunk st c).active ++ cs'.flatMap fun d => d.members).Nodup := by
      rw [List.nodup_append]
      refine ⟨hinv'.2.2.1, h2b, ?_⟩
      intro k hk hk'
      rcases (hact' k).mp hk with hm | ha
      · exact h2disj hm hk'
      · exact hdisj ha (List.mem_append.mpr (Or.inr hk'))
    obtain ⟨hinvF, hmemF⟩ :=
      ih (placeChunk st c) hinv' (fun d hd => hcwf d (List.mem_cons_of_mem _ hd)) hnd'
    rw [List.foldl_cons]
    refine ⟨hinvF, fun k => ?_⟩
    rw [hmemF k, hact' k]
    constructor
    · rintro ((hm | ha) | ⟨d, hd, hkm⟩)
      · exact Or.inr ⟨c, List.mem_cons_self _ _, hm⟩
      · exact Or.inl ha
      · exact Or.inr ⟨d, List.mem_cons_of_mem _ hd, hkm⟩
    · rintro (ha | ⟨d, hd, hkm⟩)
      · exact Or.inl (Or.inr ha)
      · rcases List.mem_cons.mp hd with rfl | hd'
        · exact Or.inl (Or.inl hkm)
        · exact Or.inr ⟨d, hd', hkm⟩

/-- Records of indices that belong to no remaining chunk are unchanged by
the rest of the fold. -/
theorem placeChunks_untouched :
    ∀ (cs : List Chunk) (st : PlanState) (k : Nat),
    (∀ c ∈ cs, k ∉ c.members) →
    allocAt (cs.foldl placeChunk st).allocs k = allocAt st.allocs k := by
  intro cs
  induction cs with
  | nil => intro st k _; rfl
  | cons c cs' ih =>
    intro st k hk
    rw [List.foldl_cons, ih _ k (fun d hd => hk d (List.mem_cons_of_mem _ hd))]
    exact placeMembers_untouched c.members _ st.allocs st.active k
      (hk c (List.mem_cons_self _ _))

/-- After the placement fold, consecutive members of any chunk sit at
consecutive byte offsets. -/
theorem placeChunks_adjacent (orig : List TensorAlloc) :
    ∀ (cs : List Chunk) (st : PlanState),
    PlanInv orig st →
    (∀ c ∈ cs, ChunkWF orig c) →
    (st.active ++ cs.flatMap fun c => c.members).Nodup →
    ∀ c ∈ cs, ∀ t (ht1 : t < c.members.length) (ht2 : t + 1 < c.members.length),
      (allocAt (cs.foldl placeChunk st).allocs (c.members.get ⟨t + 1, ht2⟩)).byteOffset =
        (allocAt (cs.foldl placeChunk st).allocs (c.members.get ⟨t, ht1⟩)).byteOffset +
        (allocAt (cs.foldl placeChunk st).allocs (c.members.get ⟨t, ht1⟩)).byteSize := by
  intro cs
  induction cs with
  | nil =>
    intro st _ _ _ c hc
    cases hc
  | cons c0 cs' ih =>
    intro st hinv hcwf hnd c hc t ht1 ht2
    rw [List.flatMap_cons] at hnd
    rw [List.nodup_append] at hnd
    obtain ⟨h1, h2, hdisj⟩ := hnd
    rw [List.nodup_append] at h2
    obtain ⟨h2a, h2b, h2disj⟩ := h2
    have hfresh : ∀ k ∈ st.active, k ∉ c0.members := by
      intro k hk hkm
      exact hdisj hk (List.mem_append.mpr (Or.inl hkm))
    obtain ⟨hinv', hact'⟩ :=
      placeChunk_inv orig st c0 hinv (hcwf c0 (List.mem_cons_self _ _)) hfresh
    have hnd' : ((placeChunk st c0).active ++ cs'.flatMap fun d => d.members).Nodup := by
      rw [List.nodup_append]
      refine ⟨hinv'.2.2.1, h2b, ?_⟩
      intro k hk hk'
      rcases (hact' k).mp hk with hm | ha
      · exact h2disj hm hk'
      · exact hdisj ha (List.mem_append.mpr (Or.inr hk'))
    rcases List.mem_cons.mp hc with rfl | hc'
    · -- the chunk placed right now; later chunks leave its members alone
      obtain ⟨hival, hsum, hcnd, hcval⟩ := hcwf c (List.mem_cons_self _ _)
      obtain ⟨hlen, hshape, _, hsort, _⟩ := hinv
      have hval' : ∀ m ∈ c.members, m < st.allocs.length := by
        intro m hm
        rw [hlen]
        exact hcval m hm
      have huntouched : ∀ m ∈ c.members,
          allocAt (cs'.foldl placeChunk (placeChunk st c)).allocs m =
            allocAt (placeChunk st c).allocs m := by
        intro m hm
        exact placeChunks_untouched cs' _ m (fun d hd hmd =>
          h2disj hm (List.mem_flatMap.mpr ⟨d, hd, hmd⟩))
      rw [List.foldl_cons,
        huntouched _ (List.get_mem c.members (t + 1) ht2),
        huntouched _ (List.get_mem c.members t ht1)]
      have hrec1 : allocAt (placeChunk st c).allocs (c.members.get ⟨t, ht1⟩) =
          { allocAt st.allocs (c.members.get ⟨t, ht1⟩) with
            byteOffset := chooseOffset st.allocs c.firstOpID c.lastOpID c.byteSize st.active +
              ((c.members.take t).map fun m => (allocAt st.allocs m).byteSize).sum } :=
        placeMembers_member c.members
          (chooseOffset st.allocs c.firstOpID c.lastOpID c.byteSize st.active)
          st.allocs st.active hcnd hval' t ht1
      have hrec2 : allocAt (placeChunk st c).allocs (c.members.get ⟨t + 1, ht2⟩) =
          { allocAt st.allocs (c.members.get ⟨t + 1, ht2⟩) with
            byteOffset := chooseOffset st.allocs c.firstOpID c.lastOpID c.byteSize st.active +
              ((c.members.take (t + 1)).map fun m => (allocAt st.allocs m).byteSize).sum } :=
        placeMembers_member c.members
          (chooseOffset st.allocs c.firstOpID c.lastOpID c.byteSize st.active)
          st.allocs st.active hcnd hval' (t + 1) ht2
      rw [hrec1, hrec2]
      simp only [update_byteOffset_eq, update_byteSize_eq]
      have hlt : t < (c.members.map fun m => (allocAt st.allocs m).byteSize).length := by
        rw [List.length_map]
        exact ht1
      have hsucc := List.sum_take_succ
        (c.members.map fun m => (allocAt st.allocs m).byteSize) t hlt
      have hgetm : (c.members.map fun m => (allocAt st.allocs m).byteSize)[t] =
          (allocAt st.allocs (c.members.get ⟨t, ht1⟩)).byteSize := by
        rw [List.getElem_map]
        rfl
      have htk : ∀ x, ((c.members.map fun m => (allocAt st.allocs m).byteSize).take x).sum =
          ((c.members.take x).map fun m => (allocAt st.allocs m).byteSize).sum := by
        intro x
        rw [List.map_take]
      simp only [htk] at hsucc
      rw [hsucc, hgetm]
      omega
    · exact ih (placeChunk st c0) hinv'
        (fun d hd => hcwf d (List.mem_cons_of_mem _ hd)) hnd' c hc' t ht1 ht2

/-- A left fold of `min` is bounded by each element's value. -/
theorem foldl_min_le (f : Nat → Nat) :
    ∀ (l : List Nat) (init : Nat), (l.foldl (fun acc j => min acc (f j)) init ≤ init) ∧
      (∀ m ∈ l, l.foldl (fun acc j => min acc (f j)) init ≤ f m) := by
  intro l
  induction l with
  | nil =>
    intro init
    exact ⟨Nat.le_refl _, fun m hm => absurd hm (List.not_mem_nil m)⟩
  | cons a rest ih =>
    intro init
    obtain ⟨h1, h2⟩ := ih (min init (f a))
    refine ⟨Nat.le_trans h1 (Nat.min_le_left _ _), ?_⟩
    intro m hm
    rcases List.mem_cons.mp hm with rfl | hm'
    · exact Nat.le_trans h1 (Nat.min_le_right _ _)
    · exact h2 m hm'

/-- A left fold of `max` bounds each element's value. -/
theorem le_foldl_max (f : Nat → Nat) :
    ∀ (l : List Nat) (init : Nat), (init ≤ l.foldl (fun acc j => max acc (f j)) init) ∧
      (∀ m ∈ l, f m ≤ l.foldl (fun acc j => max acc (f j)) init) := by
  intro l
  induction l with
  | nil =>
    intro init
    exact ⟨Nat.le_refl _, fun m hm => absurd hm (List.not_mem_nil m)⟩
  | cons a rest ih =>
    intro init
    obtain ⟨h1, h2⟩ := ih (max init (f a))
    refine ⟨Nat.le_trans (Nat.le_max_left _ _) h1, ?_⟩
    intro m hm
    rcases List.mem_cons.mp hm with rfl | hm'
    · exact Nat.le_trans (Nat.le_max_right _ _) h1
    · exact h2 m hm'

/-- Walking `next` links from the head of a linked chain recovers exactly
the chain, given enough fuel. -/
theorem chainFrom_of_chain (allocs : List TensorAlloc) :
    ∀ (c : List Nat) (hd : Nat), c.head? = some hd →
    List.Chain' (fun a b => (allocAt allocs a).next = some b) c →
    (∀ lst, c.getLast? = some lst → (allocAt allocs lst).next = none) →
    ∀ fuel, c.length ≤ fuel + 1 → chainFrom allocs fuel hd = c := by
  intro c
  induction c with
  | nil => intro hd h; cases h
  | cons m rest ih =>
    intro hd hh hch hlast fuel hfuel
    have hhd : m = hd := by injection hh
    subst hhd
    cases rest with
    | nil =>
      have hn : (allocAt allocs m).next = none := hlast m rfl
      cases fuel with
      | zero => rfl
      | succ f => simp [chainFrom, hn]
    | cons m2 rest2 =>
      obtain ⟨hnext, hch'⟩ := List.chain'_cons.mp hch
      cases fuel with
      | zero => simp at hfuel
      | succ f =>
        have hstep : chainFrom allocs (f + 1) m = m :: chainFrom allocs f m2 := by
          simp [chainFrom, hnext]
        rw [hstep, ih m2 rfl hch'
          (fun lst hl => hlast lst (by rw [List.getLast?_cons_cons]; exact hl))
          f (by simp at hfuel ⊢; omega)]

/-- In a doubly linked chain, every member except the head has a `prev`. -/
theorem chain_mem_prev (allocs : List TensorAlloc) :
    ∀ (c : List Nat),
    List.Chain' (fun a b => (allocAt allocs a).next = some b ∧
      (allocAt allocs b).prev = some a) c →
    ∀ m ∈ c, c.head? = some m ∨ (allocAt allocs m).prev ≠ none := by
  intro c
  induction c with
  | nil => intro _ m hm; cases hm
  | cons a rest ih =>
    intro hch m hm
    rcases List.mem_cons.mp hm with rfl | hm'
    · exact Or.inl rfl
    · cases rest with
      | nil => cases hm'
      | cons b rest2 =>
        obtain ⟨⟨_, hprev⟩, hch'⟩ := List.chain'_cons.mp hch
        rcases ih hch' m hm' with hh | hp
        · have hmb : b = m := by injection hh
          subst hmb
          exact Or.inr (by rw [hprev]; exact fun h => by cases h)
        · exact Or.inr hp

/-- Under well-formedness, each chunk formed by `mkChunks` satisfies the
per-chunk facts the placement proof needs, and its member list is one of
the chains. -/
theorem mkChunks_spec (allocs : List TensorAlloc) (chains : List (List Nat))
    (hwf : GraphWF allocs chains) :
    ∀ ck ∈ mkChunks allocs, ChunkWF allocs ck ∧ ck.members ∈ chains := by
  obtain ⟨hchains, hperm, _⟩ := hwf
  intro ck hck
  obtain ⟨i, hirange, hFi⟩ := List.mem_filterMap.mp hck
  have hi : i < allocs.length := List.mem_range.mp hirange
  by_cases hprev : (allocAt allocs i).prev.isSome
  · rw [if_pos hprev] at hFi
    cases hFi
  · rw [if_neg hprev] at hFi
    have hprevn : (allocAt allocs i).prev = none := Option.not_isSome_iff_eq_none.mp hprev
    have hiflat : i ∈ chains.flatten := by
      rw [hperm.mem_iff]
      exact List.mem_range.mpr hi
    obtain ⟨c, hc, hic⟩ := List.mem_flatten.mp hiflat
    obtain ⟨hcne, hcl⟩ := hchains c hc
    obtain ⟨hhead, hchain, hlast⟩ := hcl
    have hheadi : c.head? = some i := by
      rcases chain_mem_prev allocs c hchain i hic with hh | hp
      · exact hh
      · exact absurd hprevn hp
    have hflatnd : chains.flatten.Nodup := by
      rw [hperm.nodup_iff]
      exact List.nodup_range _
    have hcnd : c.Nodup :=
      ((List.infix_of_mem_flatten hc).sublist).nodup hflatnd
    have hcsub : ∀ m ∈ c, m < allocs.length := by
      intro m hm
      have hmf : m ∈ chains.flatten := List.mem_flatten.mpr ⟨c, hc, hm⟩
      rw [hperm.mem_iff] at hmf
      exact List.mem_range.mp hmf
    have hclen : c.length ≤ allocs.length := by
      have hsp : c.Sublist chains.flatten := (List.infix_of_mem_flatten hc).sublist
      have h1 := hsp.length_le
      have h2 : chains.flatten.length = allocs.length := by
        rw [hperm.length_eq, List.length_range]
      omega
    have hcf : chainFrom allocs allocs.length i = c :=
      chainFrom_of_chain allocs c i hheadi
        (hchain.imp fun a b h => h.1) hlast allocs.length (by omega)
    have hckeq : ck = { members := chainFrom allocs allocs.length i
                        firstOpID := (chainFrom allocs allocs.length i).foldl
                          (fun acc j => min acc (allocAt allocs j).firstOpID)
                          (allocAt allocs i).firstOpID
                        lastOpID := (chainFrom allocs allocs.length i).foldl
                          (fun acc j => max acc (allocAt allocs j).lastOpID)
                          (allocAt allocs i).lastOpID
                        byteSize := ((chainFrom allocs allocs.length i).map fun j =>
                          (allocAt allocs j).byteSize).sum } := by
    -- placeholder
      have hFi' := hFi
      simp only [Option.some.injEq] at hFi'
      exact hFi'.symm
  -- placeholder2
    subst hckeq
    refine ⟨⟨?_, ?_, ?_, ?_⟩, ?_⟩
    · intro m hm
      have hm' : m ∈ c := by
        rw [← hcf]
        exact hm
      constructor
      · show (chainFrom allocs allocs.length i).foldl
          (fun acc j => min acc (allocAt allocs j).firstOpID)
          (allocAt allocs i).firstOpID ≤ _
        rw [hcf]
        exact (foldl_min_le (fun j => (allocAt allocs j).firstOpID) c _).2 m hm'
      · show _ ≤ (chainFrom allocs allocs.length i).foldl
          (fun acc j => max acc (allocAt allocs j).lastOpID)
          (allocAt allocs i).lastOpID
        rw [hcf]
        exact (le_foldl_max (fun j => (allocAt allocs j).lastOpID) c _).2 m hm'
    · rfl
    · show (chainFrom allocs allocs.length i).Nodup
      rw [hcf]
      exact hcnd
    · intro m hm
      have hm' : m ∈ c := by
        rw [← hcf]
        exact hm
      exact hcsub m hm'
    · show chainFrom allocs allocs.length i ∈ chains
      rw [hcf]
      exact hc

/-- The fuel walk always starts at its starting index. -/
theorem chainFrom_head (allocs : List TensorAlloc) (fuel i : Nat) :
    (chainFrom allocs fuel i).head? = some i := by
  cases fuel with
  | zero => rfl
  | succ f =>
    cases hn : (allocAt allocs i).next with
    | none => simp [chainFrom, hn]
    | some j => simp [chainFrom, hn]

/-- Under well-formedness, the combined chunk member lists are free of
duplicates: the chunks are distinct chains. -/
theorem mkChunks_flat_nodup (allocs : List TensorAlloc) (chains : List (List Nat))
    (hwf : GraphWF allocs chains) :
    ((mkChunks allocs).flatMap fun c => c.members).Nodup := by
  have hspec := mkChunks_spec allocs chains hwf
  have hflatnd : chains.flatten.Nodup := by
    rw [hwf.2.1.nodup_iff]
    exact List.nodup_range _
  obtain ⟨hchainnd, hchaindisj⟩ := List.nodup_flatten.mp hflatnd
  rw [List.flatMap_def, List.nodup_flatten]
  constructor
  · intro l hl
    obtain ⟨ck, hck, rfl⟩ := List.mem_map.mp hl
    exact hchainnd _ (hspec ck hck).2
  · rw [List.pairwise_map]
    have hmemhead : ∀ (x : Nat) (ck : Chunk), x ∈ List.range allocs.length →
        (if (allocAt allocs x).prev.isSome then none
         else
           (let mem := chainFrom allocs allocs.length x
            some { members := mem
                   firstOpID := mem.foldl (fun acc j => min acc (allocAt allocs j).firstOpID)
                     (allocAt allocs x).firstOpID
                   lastOpID := mem.foldl (fun acc j => max acc (allocAt allocs j).lastOpID)
                     (allocAt allocs x).lastOpID
                   byteSize := (mem.map fun j => (allocAt allocs j).byteSize).sum })) =
          some ck →
        ck ∈ mkChunks allocs ∧ ck.members.head? = some x := by
      intro x ck hx hFx
      refine ⟨List.mem_filterMap.mpr ⟨x, hx, hFx⟩, ?_⟩
      by_cases hpx : (allocAt allocs x).prev.isSome
      · rw [if_pos hpx] at hFx
        cases hFx
      · rw [if_neg hpx] at hFx
        simp only [Option.some.injEq] at hFx
        have hmemx : ck.members = chainFrom allocs allocs.length x := by
          rw [← hFx]
        rw [hmemx]
        exact chainFrom_head allocs allocs.length x
    unfold mkChunks
    rw [List.pairwise_filterMap]
    apply List.Pairwise.imp_of_mem ?_ (List.pairwise_lt_range allocs.length)
    intro a b ha hb hab ck hck ck' hck'
    rw [Option.mem_def] at hck hck'
    obtain ⟨hckmem, hheada⟩ := hmemhead a ck ha hck
    obtain ⟨hckmem', hheadb⟩ := hmemhead b ck' hb hck'
    have hcachains := (hspec ck hckmem).2
    have hcbchains := (hspec ck' hckmem').2
    have hvalne : ck.members ≠ ck'.members := by
      intro he
      rw [he, hheadb] at hheada
      have : b = a := by injection hheada
      omega
    exact List.Pairwise.forall (fun _ _ h => h.symm) hchaindisj
      hcachains hcbchains hvalne

/-- Every chain appears as the member list of a chunk. -/
theorem chain_is_chunk (allocs : List TensorAlloc) (chains : List (List Nat))
    (hwf : GraphWF allocs chains) :
    ∀ c ∈ chains, ∃ ck ∈ mkChunks allocs, ck.members = c := by
  obtain ⟨hchains, hperm, _⟩ := hwf
  intro c hc
  obtain ⟨hcne, hcl⟩ := hchains c hc
  obtain ⟨hhead, hchain, hlast⟩ := hcl
  cases c with
  | nil => exact absurd rfl hcne
  | cons hd rest =>
    have hhd : (allocAt allocs hd).prev = none := hhead hd rfl
    have hhdmem : hd ∈ chains.flatten :=
      List.mem_flatten.mpr ⟨hd :: rest, hc, List.mem_cons_self _ _⟩
    have hhdn : hd < allocs.length := by
      rw [hperm.mem_iff] at hhdmem
      exact List.mem_range.mp hhdmem
    have hflatnd : chains.flatten.Nodup := by
      rw [hperm.nodup_iff]
      exact List.nodup_range _
    have hclen : (hd :: rest).length ≤ allocs.length := by
      have hsp : (hd :: rest).Sublist chains.flatten :=
        (List.infix_of_mem_flatten hc).sublist
      have h1 := hsp.length_le
      have h2 : chains.flatten.length = allocs.length := by
        rw [hperm.length_eq, List.length_range]
      omega
    have hcf : chainFrom allocs allocs.length hd = hd :: rest :=
      chainFrom_of_chain allocs (hd :: rest) hd rfl
        (hchain.imp fun a b h => h.1) hlast allocs.length (by omega)
    refine ⟨{ members := chainFrom allocs allocs.length hd
              firstOpID := (chainFrom allocs allocs.length hd).foldl
                (fun acc j => min acc (allocAt allocs j).firstOpID)
                (allocAt allocs hd).firstOpID
              lastOpID := (chainFrom allocs allocs.length hd).foldl
                (fun acc j => max acc (allocAt allocs j).lastOpID)
                (allocAt allocs hd).lastOpID
              byteSize := ((chainFrom allocs allocs.length hd).map fun j =>
                (allocAt allocs j).byteSize).sum },
      List.mem_filterMap.mpr ⟨hd, List.mem_range.mpr hhdn, ?_⟩, ?_⟩
    · rw [if_neg (by rw [hhd]; exact Bool.false_ne_true ∘ id ∘ fun h => h)]
    · show chainFrom allocs allocs.length hd = hd :: rest
      exact hcf

/-- C2: after `planAllocations` runs on a well-formed allocation store
(every record with `firstOpID ≤ lastOpID` and the `prev`/`next` links
forming acyclic doubly linked chains, witnessed by the chain
decomposition), any two distinct allocations whose op-ID lifetime
intervals overlap are assigned disjoint byte extents. -/
theorem C2_disjoint_lifetime_disjoint_bytes (allocs : List TensorAlloc)
    (chains : List (List Nat)) (hwf : GraphWF allocs chains) (i j : Nat)
    (hi : i < allocs.length) (hj : j < allocs.length) (hne : i ≠ j)
    (hov : timeOverlap (allocAt allocs i) (allocAt allocs j)) :
    bytesDisjoint (allocAt (planAlloc allocs).1 i) (allocAt (planAlloc allocs).1 j) := by
  have hspec := mkChunks_spec allocs chains hwf
  have hperm := sortChunksDesc_perm (mkChunks allocs)
  have hcwf : ∀ c ∈ sortChunksDesc (mkChunks allocs), ChunkWF allocs c :=
    fun c hc => (hspec c (hperm.subset hc)).1
  have hflatnd : ((sortChunksDesc (mkChunks allocs)).flatMap fun c => c.members).Nodup := by
    rw [(List.Perm.flatMap_right (fun c => c.members) hperm).nodup_iff]
    exact mkChunks_flat_nodup allocs chains hwf
  have hinv0 : PlanInv allocs ⟨allocs, [], 0⟩ :=
    ⟨rfl, fun k => rfl, List.nodup_nil, List.Pairwise.nil, by intro a ha; cases ha⟩
  obtain ⟨hinvF, hmemF⟩ := placeChunks_fold allocs (sortChunksDesc (mkChunks allocs))
    ⟨allocs, [], 0⟩ hinv0 hcwf (by simpa using hflatnd)
  obtain ⟨hlenF, hshapeF, _, _, hdisjF⟩ := hinvF
  have hcover : ∀ k, k < allocs.length →
      k ∈ ((sortChunksDesc (mkChunks allocs)).foldl placeChunk ⟨allocs, [], 0⟩).active := by
    intro k hk
    obtain ⟨c, hc, hkc⟩ := List.mem_flatten.mp
      (by rw [hwf.2.1.mem_iff]; exact List.mem_range.mpr hk)
    obtain ⟨ck, hckmem, hckeq⟩ := chain_is_chunk allocs chains hwf c hc
    refine (hmemF k).mpr (Or.inr ⟨ck, ?_, ?_⟩)
    · rw [hperm.mem_iff]
      exact hckmem
    · rw [hckeq]
      exact hkc
  have hiact := hcover i hi
  have hjact := hcover j hj
  have hovF : timeOverlap
      (allocAt ((sortChunksDesc (mkChunks allocs)).foldl placeChunk ⟨allocs, [], 0⟩).allocs i)
      (allocAt ((sortChunksDesc (mkChunks allocs)).foldl placeChunk ⟨allocs, [], 0⟩).allocs j) := by
    rw [timeOverlap_of_shape (hshapeF i) (hshapeF j)]
    exact hov
  exact hdisjF i hiact j hjact hne hovF

/-- C2 witness: two 100-byte allocations with overlapping lifetimes
`[0,5]` and `[3,7]` (spec section 8, scenario 2) receive disjoint
extents. -/
theorem C2_witness :
    bytesDisjoint (allocAt (planAlloc allocsW2).1 0) (allocAt (planAlloc allocsW2).1 1) := by
  refine C2_disjoint_lifetime_disjoint_bytes allocsW2 chainsW2 ⟨?_, ?_, ?_⟩ 0 1
    (by decide) (by decide) (by decide) (And.intro (by decide) (by decide))
  · intro c hc
    rcases List.mem_cons.mp hc with rfl | hc'
    · refine ⟨by decide, ?_, ?_, ?_⟩
      · intro hd h
        cases h
        rfl
      · exact List.chain'_singleton 0
      · intro lst h
        cases h
        rfl
    · rcases List.mem_cons.mp hc' with rfl | hc''
      · refine ⟨by decide, ?_, ?_, ?_⟩
        · intro hd h
          cases h
          rfl
        · exact List.chain'_singleton 1
        · intro lst h
          cases h
          rfl
      · cases hc''
  · decide
  · decide

/-- C3: after `planAllocations` runs on a well-formed allocation store,
every pair of consecutive chain members `a.next = b` satisfies
`b.byteOffset = a.byteOffset + a.byteSize`. -/
theorem C3_chain_adjacency (allocs : List TensorAlloc)
    (chains : List (List Nat)) (hwf : GraphWF allocs chains) (i j : Nat)
    (hnext : (allocAt allocs i).next = some j) :
    (allocAt (planAlloc allocs).1 j).byteOffset =
      (allocAt (planAlloc allocs).1 i).byteOffset +
      (allocAt (planAlloc allocs).1 i).byteSize := by
  have hi : i < allocs.length := by
    by_contra hcon
    push_neg at hcon
    have : allocAt allocs i = default := List.getD_eq_default allocs default hcon
    rw [this] at hnext
    cases hnext
  obtain ⟨c, hc, hic⟩ := List.mem_flatten.mp
    (by rw [hwf.2.1.mem_iff]; exact List.mem_range.mpr hi)
  obtain ⟨hcne, hcl⟩ := (hwf.1) c hc
  obtain ⟨hhead, hchain, hlast⟩ := hcl
  obtain ⟨⟨t, ht⟩, hgt⟩ := List.mem_iff_get.mp hic
  -- i is not the last member of its chain
  have ht2 : t + 1 < c.length := by
    by_contra hcon
    push_neg at hcon
    have hteq : c.length - 1 = t := by omega
    have hlastget : c.getLast? = some (c.get ⟨t, ht⟩) := by
      rw [List.getLast?_eq_getElem?, hteq]
      exact List.getElem?_eq_getElem ht
    have := hlast _ hlastget
    rw [hgt, hnext] at this
    cases this
  -- the next chain member is j
  have hnextc := List.chain'_iff_get.mp hchain t (by omega)
  have hj : c.get ⟨t + 1, by omega⟩ = j := by
    have h1 := hnextc.1
    rw [hgt, hnext] at h1
    injection h1 with h1
    exact h1.symm
  -- the chunk of this chain
  obtain ⟨ck, hckmem, hckeq⟩ := chain_is_chunk allocs chains hwf c hc
  have hperm := sortChunksDesc_perm (mkChunks allocs)
  have hspec := mkChunks_spec allocs chains hwf
  have hcwf : ∀ d ∈ sortChunksDesc (mkChunks allocs), ChunkWF allocs d :=
    fun d hd => (hspec d (hperm.subset hd)).1
  have hflatnd : ((sortChunksDesc (mkChunks allocs)).flatMap fun d => d.members).Nodup := by
    rw [(List.Perm.flatMap_right (fun d => d.members) hperm).nodup_iff]
    exact mkChunks_flat_nodup allocs chains hwf
  have hinv0 : PlanInv allocs ⟨allocs, [], 0⟩ :=
    ⟨rfl, fun k => rfl, List.nodup_nil, List.Pairwise.nil, by intro a ha; cases ha⟩
  have hckmem' : ck ∈ sortChunksDesc (mkChunks allocs) := by
    rw [hperm.mem_iff]
    exact hckmem
  have ht1' : t < ck.members.length := by
    rw [hckeq]
    omega
  have ht2' : t + 1 < ck.members.length := by
    rw [hckeq]
    omega
  have hadj := placeChunks_adjacent allocs (sortChunksDesc (mkChunks allocs))
    ⟨allocs, [], 0⟩ hinv0 hcwf (by simpa using hflatnd) ck hckmem' t ht1' ht2'
  have hget1 : ck.members.get ⟨t, ht1'⟩ = i := by
    have h1 : ck.members[t]? = some i := by
      rw [hckeq]
      exact (List.getElem?_eq_getElem ht).trans (congrArg some hgt)
    have h2 : ck.members[t]? = some (ck.members.get ⟨t, ht1'⟩) :=
      List.getElem?_eq_getElem ht1'
    exact Option.some.inj (h2.symm.trans h1)
  have hget2 : ck.members.get ⟨t + 1, ht2'⟩ = j := by
    have h1 : ck.members[t + 1]? = some j := by
      rw [hckeq]
      exact (List.getElem?_eq_getElem ht2).trans (congrArg some hj)
    have h2 : ck.members[t + 1]? = some (ck.members.get ⟨t + 1, ht2'⟩) :=
      List.getElem?_eq_getElem ht2'
    exact Option.some.inj (h2.symm.trans h1)
  rw [hget1, hget2] at hadj
  exact hadj

/-- C3 witness: the three-member chain sized 50, 70, 30 (spec section 8,
scenario 3): the second member sits right after the first. -/
theorem C3_witness :
    (allocAt (planAlloc allocsW3).1 1).byteOffset =
      (allocAt (planAlloc allocsW3).1 0).byteOffset +
      (allocAt (planAlloc allocsW3).1 0).byteSize := by
  refine C3_chain_adjacency allocsW3 chainsW3 ⟨?_, ?_, ?_⟩ 0 1 (by decide)
  · intro c hc
    rcases List.mem_cons.mp hc with rfl | hc'
    · refine ⟨by decide, ?_, ?_, ?_⟩
      · intro hd h
        cases h
        rfl
      · exact List.Chain'.cons ⟨by decide, by decide⟩
          (List.Chain'.cons ⟨by decide, by decide⟩ (List.chain'_singleton 2))
      · intro lst h
        cases h
        rfl
    · cases hc'
  · decide
  · decide

end OIDN
